import Mathlib

/-!
Verification of the BVH raytracer (`src/bvh.rs`, `src/shapes.rs`, `src/lib.rs`,
`src/main.rs`) against its natural-language specification.

Machine floats (`f32`) are modelled by `F`: exact rationals extended with the
IEEE special values `+inf`, `-inf` and `nan`.  All arithmetic on finite values
is exact (rounding is idealised away); the special-value propagation rules
(`inf - inf = nan`, `0/0 = nan`, `x/0 = ±inf`, comparisons with `nan` are
`false`, Rust's `f32::min`/`f32::max` ignore a `nan` argument) follow IEEE-754
and the Rust standard library.  `f32::sqrt` is modelled by `Rat.sqrt` (exact on
perfect squares, which is all any proof below depends on).
-/

set_option maxHeartbeats 1600000
set_option maxRecDepth 4000

namespace Raytracer

/-- Model of `f32`: `nan`, signed infinities (`inf true = +∞`, `inf false = -∞`)
and exact finite rationals. -/
inductive F : Type
  | nan : F
  | inf : Bool → F
  | fin : ℚ → F
deriving DecidableEq, Repr

namespace F

/-- IEEE negation. -/
def neg : F → F
  | nan => nan
  | inf b => inf !b
  | fin q => fin (-q)

/-- IEEE addition (`inf + -inf = nan`). -/
def add : F → F → F
  | nan, _ => nan
  | _, nan => nan
  | inf b, inf c => if b = c then inf b else nan
  | inf b, fin _ => inf b
  | fin _, inf c => inf c
  | fin a, fin b => fin (a + b)

/-- IEEE subtraction. -/
def sub (a b : F) : F := add a (neg b)

/-- IEEE multiplication (`0 * inf = nan`). -/
def mul : F → F → F
  | nan, _ => nan
  | _, nan => nan
  | inf b, inf c => inf (b == c)
  | inf b, fin q => if q = 0 then nan else inf (b == decide (0 < q))
  | fin q, inf c => if q = 0 then nan else inf (c == decide (0 < q))
  | fin a, fin b => fin (a * b)

/-- IEEE division (`x/0 = ±inf` for `x ≠ 0`, `0/0 = nan`, `inf/inf = nan`).
Zero is unsigned in this model and is treated as `+0`. -/
def div : F → F → F
  | nan, _ => nan
  | _, nan => nan
  | inf _, inf _ => nan
  | inf b, fin q => inf (b == decide (0 ≤ q))
  | fin _, inf _ => fin 0
  | fin a, fin b =>
    if b = 0 then (if a = 0 then nan else inf (decide (0 < a))) else fin (a / b)

/-- IEEE `<` (false whenever an operand is `nan`). -/
def lt : F → F → Bool
  | nan, _ => false
  | _, nan => false
  | inf b, inf c => !b && c
  | inf b, fin _ => !b
  | fin _, inf c => c
  | fin a, fin b => decide (a < b)

/-- IEEE `<=` (false whenever an operand is `nan`). -/
def le : F → F → Bool
  | nan, _ => false
  | _, nan => false
  | inf b, inf c => !b || c
  | inf b, fin _ => !b
  | fin _, inf c => c
  | fin a, fin b => decide (a ≤ b)

/-- IEEE `>`. -/
def gt (a b : F) : Bool := lt b a

/-- IEEE `>=`. -/
def ge (a b : F) : Bool := le b a

/-- Rust `f32::min`: if one argument is `nan` the other is returned. -/
def fmin : F → F → F
  | nan, y => y
  | x, nan => x
  | x, y => if le x y then x else y

/-- Rust `f32::max`: if one argument is `nan` the other is returned. -/
def fmax : F → F → F
  | nan, y => y
  | x, nan => x
  | x, y => if le y x then x else y

/-- `f32::is_finite`. -/
def isFinite : F → Bool
  | fin _ => true
  | _ => false

/-- `f32::abs`. -/
def abs : F → F
  | nan => nan
  | inf _ => inf true
  | fin q => fin |q|

/-- `f32::sqrt`, modelled by `Rat.sqrt` on nonnegative finite values. -/
def sqrt : F → F
  | nan => nan
  | inf b => if b then inf true else nan
  | fin q => if q < 0 then nan else fin (Rat.sqrt q)

instance : OfNat F n := ⟨F.fin n⟩

end F

/-- A 3-component vector of model floats, standing for the library's
`Vector<3, f32>` / `Point3` / `NormalizedVector3` (the normalisation tag
carries no data and is erased in the model). -/
structure V3 where
  x : F
  y : F
  z : F
deriving DecidableEq, Repr

namespace V3

/-- Componentwise combination, `BaseVector::combine`. -/
def combine (f : F → F → F) (a b : V3) : V3 := ⟨f a.x b.x, f a.y b.y, f a.z b.z⟩

/-- Componentwise `Add` from `impl_vec_op!`. -/
def add (a b : V3) : V3 := combine F.add a b

/-- Componentwise `Sub` from `impl_vec_op!`. -/
def sub (a b : V3) : V3 := combine F.sub a b

/-- Componentwise `Div` from `impl_vec_op!`. -/
def dive (a b : V3) : V3 := combine F.div a b

/-- Vector–scalar multiplication from `impl_vec_op!`. -/
def smul (a : V3) (s : F) : V3 := ⟨F.mul a.x s, F.mul a.y s, F.mul a.z s⟩

/-- Vector–scalar division from `impl_vec_op!`. -/
def sdiv (a : V3) (s : F) : V3 := ⟨F.div a.x s, F.div a.y s, F.div a.z s⟩

/-- Elementwise min (`Vector::min`, which delegates to `f32::min`). -/
def vmin (a b : V3) : V3 := combine F.fmin a b

/-- Elementwise max (`Vector::max`, which delegates to `f32::max`). -/
def vmax (a b : V3) : V3 := combine F.fmax a b

/-- `BaseVector::dot`: componentwise product then left-to-right sum. -/
def dot (a b : V3) : F := F.add (F.add (F.mul a.x b.x) (F.mul a.y b.y)) (F.mul a.z b.z)

/-- `Vector::cross` (the `yzx`/`zxy` swap formulation of the source). -/
def cross (a b : V3) : V3 :=
  ⟨F.sub (F.mul a.y b.z) (F.mul a.z b.y),
   F.sub (F.mul a.z b.x) (F.mul a.x b.z),
   F.sub (F.mul a.x b.y) (F.mul a.y b.x)⟩

/-- Modelled from the spec: `Point::vector_to` is not under `src/`; §4.1 uses it
as `(min - origin)`, i.e. the componentwise difference `b - a`. -/
def vector_to (a b : V3) : V3 := sub b a

/-- `Vector::normalize`: divide by the length `sqrt (v ⬝ v)`. -/
def normalize (v : V3) : V3 := sdiv v (F.sqrt (dot v v))

/-- `inner()[axis]` indexing used by the SAH split search. -/
def nth (v : V3) : ℕ → F
  | 0 => v.x
  | 1 => v.y
  | _ => v.z

/-- The all-`+∞` point, the fold seed of `smallest_bounds`. -/
def pinf : V3 := ⟨F.inf true, F.inf true, F.inf true⟩

/-- The all-`-∞` point, the fold seed of `smallest_bounds`. -/
def ninf : V3 := ⟨F.inf false, F.inf false, F.inf false⟩

/-- Componentwise `<=` on points, used only in specifications. -/
def vle (a b : V3) : Prop := F.le a.x b.x = true ∧ F.le a.y b.y = true ∧ F.le a.z b.z = true

end V3

/-- A ray: origin and direction.  The `NormalizedVec3` wrapper of the source
carries no extra data, so the direction is a plain vector here. -/
structure Ray where
  origin : V3
  dir : V3
deriving DecidableEq, Repr

/-- `MIN_DISTANCE` from `src/shapes.rs`: the least distance at which an
intersection counts. -/
def minDistance : F := F.fin (1/1000)

/-- The data and capabilities of one shape as consumed by the generic BVH
(`trait Shape` from `src/shapes.rs`): intersection test, centroid, AABB
extrema, shading payload and material index. -/
structure ShapeData where
  intersects : Ray → Option F
  centroid : V3
  smin : V3
  smax : V3
  ntc : V3 → V3 × F × F
  materialIndex : ℕ

instance : Inhabited ShapeData :=
  ⟨⟨fun _ => none, ⟨0, 0, 0⟩, ⟨0, 0, 0⟩, ⟨0, 0, 0⟩, fun _ => (⟨0, 0, 0⟩, 0, 0), 0⟩⟩

/-- `shapes[i]` (all accesses are proved in bounds; out-of-bounds reads return
the inert default shape instead of panicking). -/
def shapeAt (shapes : List ShapeData) (i : ℕ) : ShapeData := shapes.getD i default

/-- `BvhNodeKind`: a branch with two child node indices, or a leaf with a
half-open shape index range. -/
inductive NodeKind : Type
  | branch : ℕ → ℕ → NodeKind
  | leaf : ℕ → ℕ → NodeKind
deriving DecidableEq, Repr

/-- `BvhNode`: kind plus its AABB (`min`, `max`). -/
structure Node where
  kind : NodeKind
  nmin : V3
  nmax : V3
deriving DecidableEq, Repr

instance : Inhabited Node := ⟨⟨NodeKind.leaf 0 0, ⟨0, 0, 0⟩, ⟨0, 0, 0⟩⟩⟩

/-- `nodes[i]`. -/
def nodeAt (nodes : List Node) (i : ℕ) : Node := nodes.getD i default

namespace BvhNode

/-- `impl Intersects for BvhNode` — the slab test.  `t1`/`t2` are the
componentwise slab distances, `tmin` the `f32::max`-reduction of their
componentwise min, `tmax` the `f32::min`-reduction of their componentwise max;
a hit is reported iff `tmax >= tmin && tmax > 0` and then yields `tmin`. -/
def intersects (n : Node) (ray : Ray) : Option F :=
  let t1 := V3.dive (V3.vector_to ray.origin n.nmin) ray.dir
  let t2 := V3.dive (V3.vector_to ray.origin n.nmax) ray.dir
  let mins := V3.vmin t1 t2
  let maxs := V3.vmax t1 t2
  let tmin := F.fmax (F.fmax mins.x mins.y) mins.z
  let tmax := F.fmin (F.fmin maxs.x maxs.y) maxs.z
  if F.ge tmax tmin && F.gt tmax (F.fin 0) then some tmin else none

/-- `BvhNode::smallest_bounds`: fold the per-shape AABB extrema over a list of
shape indices, starting from the inverted infinite box. -/
def smallestBounds (shapes : List ShapeData) (indices : List ℕ) : V3 × V3 :=
  indices.foldl
    (fun acc i => (V3.vmin acc.1 (shapeAt shapes i).smin, V3.vmax acc.2 (shapeAt shapes i).smax))
    (V3.pinf, V3.ninf)

/-- `surface_area = 2*(x*y + x*z + y*z)` of an extent vector. -/
def surfaceArea (extent : V3) : F :=
  F.mul (F.fin 2)
    (F.add (F.add (F.mul extent.x extent.y) (F.mul extent.x extent.z))
      (F.mul extent.y extent.z))

/-- Result quadruple of `BvhNode::get_split`: axis, split value, SAH cost and
the two child surface areas. -/
structure Split where
  axis : ℕ
  value : F
  cost : F
  saLt : F
  saGe : F
deriving DecidableEq, Repr

/-- One side of a candidate SAH split (the closure inside `get_split`):
filters the leaf's shape range by comparing `centroid[axis]` with the
candidate boundary (`<` for the first child, `>=` for the second), computes
that side's bounds, and returns `(cost, surface_area)` — `(+∞, nan)` when the
side is empty. -/
def evalSide (shapes : List ShapeData) (s e : ℕ) (axis : ℕ) (candidate : F)
    (isLt : Bool) (parentSA : F) : F × F :=
  let idxs := (List.range' s (e - s)).filter
    (fun i =>
      if isLt then F.lt ((shapeAt shapes i).centroid.nth axis) candidate
      else F.ge ((shapeAt shapes i).centroid.nth axis) candidate)
  let num := idxs.length
  let b := smallestBounds shapes idxs
  if num = 0 then (F.inf true, F.nan)
  else
    let extent := V3.vector_to b.1 b.2
    let sa := surfaceArea extent
    (F.mul (F.mul (F.div sa parentSA) (F.fin 2)) (F.fin num), sa)

/-- The 45 candidate `(offset_num, axis)` pairs of `get_split`, in evaluation
order (outer loop `offset_num in 1..16`, inner loop `axis in 0..3`). -/
def binCandidates : List (ℕ × ℕ) :=
  (List.range' 1 15).flatMap (fun k => [(k, 0), (k, 1), (k, 2)])

/-- `BvhNode::get_split`: binned SAH over 16 bins per axis, keeping the
strictly cheapest candidate; starts from `(0, 0., ∞, [nan, nan])`. -/
def getSplit (nmin nmax : V3) (s e : ℕ) (shapes : List ShapeData) (parentSA : F) : Split :=
  let extent := V3.vector_to nmin nmax
  let offsetPerBin := V3.sdiv extent (F.fin 16)
  binCandidates.foldl
    (fun best ka =>
      let offsets := V3.add nmin (V3.smul offsetPerBin (F.fin ka.1))
      let candidate := offsets.nth ka.2
      let lt := evalSide shapes s e ka.2 candidate true parentSA
      let ge := evalSide shapes s e ka.2 candidate false parentSA
      let cost := F.add lt.1 ge.1
      if F.lt cost best.cost then ⟨ka.2, candidate, cost, lt.2, ge.2⟩ else best)
    ⟨0, F.fin 0, F.inf true, F.nan, F.nan⟩

end BvhNode

/-- Split a list as `mid ++ t :: post` where `t` is the last element
satisfying `p` and `post` contains none; `none` when no element satisfies `p`.
This is the backwards `rfind` scan of `Iterator::partition_in_place`. -/
def findLastSplit (p : α → Bool) (xs : List α) : Option (List α × α × List α) :=
  match xs.reverse.span (fun a => !p a) with
  | (_, []) => none
  | (postRev, t :: midRev) => some (midRev.reverse, t, postRev.reverse)

theorem findLastSplit_some {p : α → Bool} {xs mid post : List α} {t : α}
    (h : findLastSplit p xs = some (mid, t, post)) :
    xs = mid ++ t :: post ∧ p t = true ∧ post.all (fun a => !p a) = true ∧
      mid.length < xs.length := by
  unfold findLastSplit at h
  rcases hs : xs.reverse.span (fun a => !p a) with ⟨postRev, rest⟩
  rw [hs] at h
  cases rest with
  | nil => simp at h
  | cons t' midRev =>
    simp only [Option.some.injEq, Prod.mk.injEq] at h
    obtain ⟨h1, h2, h3⟩ := h
    rw [List.span_eq_take_drop] at hs
    obtain ⟨hs1, hs2⟩ := Prod.mk.injEq .. ▸ hs
    have hx : xs.reverse = postRev ++ t' :: midRev := by
      rw [← hs1, ← hs2, List.takeWhile_append_dropWhile]
    have hxs : xs = midRev.reverse ++ t' :: postRev.reverse := by
      have := congrArg List.reverse hx
      simpa using this
    have hpt : (!p t') = false := by
      have := List.head?_dropWhile_not (fun a => !p a) xs.reverse
      rw [hs2] at this
      simpa using this
    have hpost : postRev.all (fun a => !p a) = true := by
      rw [← hs1]
      simp only [List.all_eq_true]
      intro a ha
      exact List.mem_takeWhile_imp (p := fun a => !p a) ha
    subst h1 h2 h3
    refine ⟨hxs, by simpa using hpt, ?_, ?_⟩
    · simp only [List.all_eq_true] at hpost ⊢
      intro a ha
      exact hpost a (by simpa using ha)
    · rw [hxs]
      simp only [List.length_append, List.length_cons, List.length_reverse]
      omega

/-- The recursion of `Iterator::partition_in_place`, structural on a fuel
bound (`xs.length` fuel always suffices since the unscanned middle shrinks
strictly): repeatedly find the first element failing the predicate and swap it
with the last element satisfying it, returning the reordered list and the
count of elements satisfying the predicate. -/
def pipGo (p : α → Bool) : ℕ → List α → List α × ℕ
  | 0, xs => (xs, 0)
  | fuel+1, xs =>
    match xs.span p with
    | (pre, []) => (pre, pre.length)
    | (pre, f :: rest) =>
      match findLastSplit p rest with
      | none => (pre ++ f :: rest, pre.length)
      | some (mid, t, post) =>
        let r := pipGo p fuel mid
        (pre ++ t :: (r.1 ++ f :: post), pre.length + 1 + r.2)

/-- `Iterator::partition_in_place` from the Rust standard library, as invoked
by `BvhNode::subdivide`. -/
def partitionInPlace (p : α → Bool) (xs : List α) : List α × ℕ := pipGo p xs.length xs

/-- `BvhNode::subdivide`, with an explicit recursion-depth fuel (an embedding
device only; every theorem below either holds for all fuel values or supplies
enough fuel).  Reads the leaf range at `idx`, evaluates the SAH split, stops
when `15 + cost >= 2*num`, otherwise partitions the shape sub-slice in place,
appends the two child leaves (recursing into each) and finally turns `idx`
into a branch. -/
def subdivide : ℕ → ℕ → List ShapeData → List Node → F → List ShapeData × List Node
  | 0, _, shapes, nodes, _ => (shapes, nodes)
  | fuel+1, idx, shapes, nodes, parentSA =>
    match (nodeAt nodes idx).kind with
    | NodeKind.branch _ _ => (shapes, nodes)
    | NodeKind.leaf s e =>
      let num := e - s
      let sp := BvhNode.getSplit (nodeAt nodes idx).nmin (nodeAt nodes idx).nmax s e shapes
        parentSA
      if F.ge (F.add (F.fin 15) sp.cost) (F.mul (F.fin 2) (F.fin num)) then (shapes, nodes)
      else
        let seg := (shapes.drop s).take (e - s)
        let pr := partitionInPlace (fun sh => F.lt (sh.centroid.nth sp.axis) sp.value) seg
        let shapes1 := shapes.take s ++ pr.1 ++ shapes.drop e
        let p := s + pr.2
        let b0 := BvhNode.smallestBounds shapes1 (List.range' s (p - s))
        let c0 := nodes.length
        let nodes1 := nodes ++ [⟨NodeKind.leaf s p, b0.1, b0.2⟩]
        let r0 := subdivide fuel c0 shapes1 nodes1 sp.saLt
        let b1 := BvhNode.smallestBounds r0.1 (List.range' p (e - p))
        let c1 := r0.2.length
        let nodes2 := r0.2 ++ [⟨NodeKind.leaf p e, b1.1, b1.2⟩]
        let r1 := subdivide fuel c1 r0.1 nodes2 sp.saGe
        (r1.1,
         r1.2.set idx ⟨NodeKind.branch c0 c1, (nodeAt r1.2 idx).nmin, (nodeAt r1.2 idx).nmax⟩)

namespace BvhNode

/-- `BvhNode::new`: bounds over the whole range, a single root leaf, and
subdivision from the root.  Returns the (reordered) shape array together with
the node array; `shapes.length + 1` fuel always suffices (ranges shrink
strictly at every split). -/
def new (shapes : List ShapeData) : List ShapeData × List Node :=
  let b := smallestBounds shapes (List.range' 0 shapes.length)
  let extent := V3.vector_to b.1 b.2
  let sa := surfaceArea extent
  subdivide (shapes.length + 1) 0 shapes [⟨NodeKind.leaf 0 shapes.length, b.1, b.2⟩] sa

/-- The branch arm of the traversal loop of `BvhNode::closest_shape`: test
both children's boxes, keep a child only if its box is hit strictly closer
than the current best, and push the farther qualifying child first (the head
of the returned list is the top of the stack). -/
def stepBranch (nodes : List Node) (ray : Ray) (best : F × ℕ) (stack : List (F × ℕ))
    (c0 c1 : ℕ) : List (F × ℕ) :=
  let h0 := (intersects (nodeAt nodes c0) ray).bind
    (fun d => if F.lt d best.1 then some d else none)
  let h1 := (intersects (nodeAt nodes c1) ray).bind
    (fun d => if F.lt d best.1 then some d else none)
  match h0, h1 with
  | some d0, some d1 =>
    if F.lt d0 d1 then (d0, c0) :: (d1, c1) :: stack
    else (d1, c1) :: (d0, c0) :: stack
  | some d0, none => (d0, c0) :: stack
  | none, some d1 => (d1, c1) :: stack
  | none, none => stack

/-- The leaf arm of the traversal loop: linearly test every shape of the leaf
range, keeping strictly closer hits. -/
def leafScan (shapes : List ShapeData) (ray : Ray) (s e : ℕ) (best : F × ℕ) : F × ℕ :=
  (List.range' s (e - s)).foldl
    (fun b i =>
      match (shapeAt shapes i).intersects ray with
      | some time => if F.lt time b.1 then (time, i) else b
      | none => b) best

/-- The `while let Some(entry) = stack.pop()` loop of `closest_shape`, with
fuel (an embedding device; `3 ^ nodes.length` bounds the number of iterations
for any node array whose branches point strictly downwards). -/
def closestLoop (shapes : List ShapeData) (nodes : List Node) (ray : Ray) :
    ℕ → List (F × ℕ) → F × ℕ → F × ℕ
  | 0, _, best => best
  | _+1, [], best => best
  | fuel+1, entry :: stack, best =>
    if F.le best.1 entry.1 then closestLoop shapes nodes ray fuel stack best
    else
      match (nodeAt nodes entry.2).kind with
      | NodeKind.branch c0 c1 =>
        closestLoop shapes nodes ray fuel (stepBranch nodes ray best stack c0 c1) best
      | NodeKind.leaf s e => closestLoop shapes nodes ray fuel stack (leafScan shapes ray s e best)

/-- `u32::MAX`, the initial sentinel shape index of `closest_shape`. -/
def u32Max : ℕ := 4294967295

/-- `BvhNode::closest_shape`: run the traversal loop from `(0, root)` with the
infinite initial best, and on a finite result map the winning `(time, index)`
to `(time, hit_point, normal/texture payload, material index)`. -/
def closestShape (ray : Ray) (shapes : List ShapeData) (nodes : List Node) :
    Option (F × V3 × (V3 × F × F) × ℕ) :=
  let best := closestLoop shapes nodes ray (3 ^ nodes.length + 1) [(F.fin 0, 0)]
    (F.inf true, u32Max)
  if best.1.isFinite then
    let hitPoint := V3.add ray.origin (V3.smul ray.dir best.1)
    some (best.1, hitPoint, (shapeAt shapes best.2).ntc hitPoint,
      (shapeAt shapes best.2).materialIndex)
  else none

/-- Specification-side brute force (from the spec's words, for the refinement
claim): a linear scan calling `intersects` on every shape and keeping the
strictly closest hit. -/
def bruteForceLoop (ray : Ray) (shapes : List ShapeData) : F × ℕ :=
  (List.range shapes.length).foldl
    (fun b i =>
      match (shapeAt shapes i).intersects ray with
      | some time => if F.lt time b.1 then (time, i) else b
      | none => b) (F.inf true, u32Max)

/-- Specification-side brute-force nearest hit, reporting the same observable
payload as `closest_shape`. -/
def bruteForceClosest (ray : Ray) (shapes : List ShapeData) :
    Option (F × V3 × (V3 × F × F) × ℕ) :=
  let best := bruteForceLoop ray shapes
  if best.1.isFinite then
    let hitPoint := V3.add ray.origin (V3.smul ray.dir best.1)
    some (best.1, hitPoint, (shapeAt shapes best.2).ntc hitPoint,
      (shapeAt shapes best.2).materialIndex)
  else none

end BvhNode

/-- The transcendental `f32` operations used only by `Sphere`'s texture
mapping (no claim depends on their values), kept abstract as parameters. -/
structure Transcend where
  atan2 : F → F → F
  asin : F → F
  piF : F
  tauF : F

/-- A trivial instantiation of the transcendental operations. -/
def noTranscend : Transcend := ⟨fun _ _ => F.nan, fun _ => F.nan, F.nan, F.nan⟩

/-- `Sphere` from `src/shapes.rs`. -/
structure Sphere where
  center : V3
  radius : F
  materialIndex : ℕ
deriving DecidableEq, Repr

namespace Sphere

/-- `impl Intersects for Sphere`: quadratic formula with early negative
discriminant exit; returns `t1` if beyond `MIN_DISTANCE`, else `t2` if beyond
`MIN_DISTANCE`, else nothing. -/
def intersects (sp : Sphere) (ray : Ray) : Option F :=
  let deltaOrigin := V3.sub ray.origin sp.center
  let dod := V3.dot deltaOrigin ray.dir
  let disc := F.add (F.sub (F.mul dod dod) (V3.dot deltaOrigin deltaOrigin))
    (F.mul sp.radius sp.radius)
  if F.lt disc (F.fin 0) then none
  else
    let t1 := F.sub (F.neg dod) (F.sqrt disc)
    if F.gt t1 minDistance then some t1
    else
      let t2 := F.add (F.neg dod) (F.sqrt disc)
      if F.gt t2 minDistance then some t2 else none

/-- `Sphere::normal_and_texture_coordinates` (spherical texture mapping). -/
def ntc (tc : Transcend) (sp : Sphere) (point : V3) : V3 × F × F :=
  ((V3.sub point sp.center).normalize,
   F.add (F.fin (1/2)) (F.div (tc.atan2 point.z point.x) tc.tauF),
   F.sub (F.fin (1/2)) (F.div (tc.asin point.y) tc.piF))

/-- Package a sphere as generic BVH shape data (`impl Shape for Sphere`):
centroid is the center, AABB is `center ± radius`. -/
def toShape (tc : Transcend) (sp : Sphere) : ShapeData :=
  { intersects := sp.intersects
    centroid := sp.center
    smin := V3.sub sp.center ⟨sp.radius, sp.radius, sp.radius⟩
    smax := V3.add sp.center ⟨sp.radius, sp.radius, sp.radius⟩
    ntc := sp.ntc tc
    materialIndex := sp.materialIndex }

end Sphere

/-- `f32::EPSILON` = 2^(-23). -/
def f32Epsilon : F := F.fin (1/8388608)

/-- `Plane` from `src/shapes.rs`. -/
structure Plane where
  point : V3
  normal : V3
  materialIndex : ℕ
deriving DecidableEq, Repr

/-- `impl Intersects for Plane`: parallel rays (|denominator| < EPSILON) miss,
otherwise `t = -(numerator/denominator)` counts when beyond `MIN_DISTANCE`. -/
def Plane.intersects (pl : Plane) (ray : Ray) : Option F :=
  let denominator := V3.dot pl.normal ray.dir
  if F.lt denominator.abs f32Epsilon then none
  else
    let numerator := V3.dot pl.normal (V3.sub ray.origin pl.point)
    let t := F.neg (F.div numerator denominator)
    if F.gt t minDistance then some t else none

/-- `Triangle` from `src/shapes.rs` (vertex `a` and edge vectors `e1`, `e2`). -/
structure Triangle where
  a : V3
  e1 : V3
  e2 : V3
  materialIndex : ℕ
deriving DecidableEq, Repr

/-- The `TOLERANCE` constant of `Triangle::intersects`, `2e-6`. -/
def triTolerance : F := F.fin (1/500000)

/-- `impl Intersects for Triangle`: Möller–Trumbore, with the source's
tolerance test on the determinant, barycentric bounds checks, and the final
`MIN_DISTANCE` guard. -/
def Triangle.intersects (tr : Triangle) (ray : Ray) : Option F :=
  let rayCrossE2 := V3.cross ray.dir tr.e2
  let det := V3.dot tr.e1 rayCrossE2
  if F.lt det.abs triTolerance then none
  else
    let invDet := F.div (F.fin 1) det
    let s := V3.sub ray.origin tr.a
    let u := F.mul invDet (V3.dot s rayCrossE2)
    if !(F.le (F.fin 0) u && F.le u (F.fin 1)) then none
    else
      let sCrossE1 := V3.cross s tr.e1
      let v := F.mul invDet (V3.dot ray.dir sCrossE1)
      if F.lt v (F.fin 0) || F.gt (F.add u v) (F.fin 1) then none
      else
        let t := F.mul invDet (V3.dot tr.e2 sCrossE1)
        if F.gt t minDistance then some t else none


/-- The list of shape indices covered by one node's leaf range (empty for a
branch). -/
def leafRangeList (nd : Node) : List ℕ :=
  match nd.kind with
  | NodeKind.leaf s e => List.range' s (e - s)
  | NodeKind.branch _ _ => []

/-- One node's leaf range as a multiset of shape indices. -/
def leafMS (nd : Node) : Multiset ℕ := (leafRangeList nd : Multiset ℕ)

/-- The multiset of shape indices covered by all leaf ranges of a node
array: the partition invariant of the spec says this is exactly
`0..shape_count`, each index once. -/
def allLeafIndices (nodes : List Node) : Multiset ℕ := (nodes.map leafMS).sum

/-- Well-formedness of a node array: every branch node's children point
strictly below it (larger index) and into the array. -/
def WFNodes (nodes : List Node) : Prop :=
  ∀ j c0 c1, (nodeAt nodes j).kind = NodeKind.branch c0 c1 →
    j < c0 ∧ j < c1 ∧ c0 < nodes.length ∧ c1 < nodes.length

/-- Validity of leaf ranges: every leaf range is ordered and bounded by the
shape count. -/
def RangesOk (nodes : List Node) (n : ℕ) : Prop :=
  ∀ j s e, (nodeAt nodes j).kind = NodeKind.leaf s e → s ≤ e ∧ e ≤ n

/-- Exact rgb colors for the shading-loop comparison (componentwise `Mul` as
in `impl Mul for Color<f32>`; exact rationals, so the float non-associativity
of the attenuation product is idealised away). -/
abbrev ColorQ : Type := ℚ × ℚ × ℚ

/-- What the shading loop observes at one bounce, with the material scatter
step and the skybox blend abstracted as an oracle (`src/main.rs` and
`src/lib.rs` consume exactly these four outcomes): no intersection (with the
resulting blended skybox color), a scattered continuation (with the sampled
attenuation color), absorption, or a light hit (with the sampled emission). -/
inductive BounceEvent : Type
  | skybox : ColorQ → BounceEvent
  | scattered : ColorQ → BounceEvent
  | absorbed : BounceEvent
  | lightHit : ColorQ → BounceEvent
deriving DecidableEq, Repr

/-- The recursive `Scene::ray_color` of `src/main.rs`, over the bounce-event
oracle: at depth 0 return black; otherwise on a miss return the skybox color,
on a scatter multiply the attenuation with the recursive color, on absorption
return black, and on a light return its color.  `k` is the bounce position in
the oracle. -/
def rayColorRec (events : ℕ → BounceEvent) : ℕ → ℕ → ColorQ
  | 0, _ => ((0 : ℚ), (0 : ℚ), (0 : ℚ))
  | d + 1, k =>
    match events k with
    | BounceEvent.skybox sky => sky
    | BounceEvent.scattered att => att * rayColorRec events d (k + 1)
    | BounceEvent.absorbed => ((0 : ℚ), (0 : ℚ), (0 : ℚ))
    | BounceEvent.lightHit c => c

/-- The body of the iterative `Scene::ray_color` of `src/lib.rs`:
`current_color` starts as `None`, each arm multiplies into
`current_color.get_or_insert(white)`, and a miss/absorb/light breaks the
loop. -/
def rayColorIterGo (events : ℕ → BounceEvent) : ℕ → ℕ → Option ColorQ → Option ColorQ
  | 0, _, acc => acc
  | d + 1, k, acc =>
    match events k with
    | BounceEvent.skybox sky => some (acc.getD ((1 : ℚ), (1 : ℚ), (1 : ℚ)) * sky)
    | BounceEvent.scattered att =>
      rayColorIterGo events d (k + 1) (some (acc.getD ((1 : ℚ), (1 : ℚ), (1 : ℚ)) * att))
    | BounceEvent.absorbed => some ((0 : ℚ), (0 : ℚ), (0 : ℚ))
    | BounceEvent.lightHit c => some (acc.getD ((1 : ℚ), (1 : ℚ), (1 : ℚ)) * c)

/-- The iterative `Scene::ray_color` of `src/lib.rs`: run up to `max_bounces`
events and finish with `current_color.unwrap_or(black)`. -/
def rayColorIter (events : ℕ → BounceEvent) (maxBounces : ℕ) : ColorQ :=
  (rayColorIterGo events maxBounces 0 none).getD ((0 : ℚ), (0 : ℚ), (0 : ℚ))

/-- A stored 8-bit pixel (`Color<u8>`). -/
abbrev ColorU8 : Type := ℕ × ℕ × ℕ

/-- A working `Color<f32>` triple. -/
abbrev ColorF : Type := F × F × F

/-- `From<Color<u8>> for Color<f32>`: each channel mapped by `/ 255`. -/
def colorFromU8 (c : ColorU8) : ColorF :=
  (F.div (F.fin c.1) (F.fin 255), F.div (F.fin c.2.1) (F.fin 255),
   F.div (F.fin c.2.2) (F.fin 255))

/-- `Color<f32> * f32` (componentwise scalar multiply). -/
def colorMulS (c : ColorF) (s : F) : ColorF := (F.mul c.1 s, F.mul c.2.1 s, F.mul c.2.2 s)

/-- `Color<f32> + Color<f32>` (componentwise). -/
def colorAdd (a b : ColorF) : ColorF := (F.add a.1 b.1, F.add a.2.1 b.2.1, F.add a.2.2 b.2.2)

/-- `Color<f32> / f32` (componentwise scalar divide). -/
def colorDivS (c : ColorF) (s : F) : ColorF := (F.div c.1 s, F.div c.2.1 s, F.div c.2.2 s)

/-- `Color::color_correct`: gamma-2 correction, `sqrt` per channel. -/
def colorCorrect (c : ColorF) : ColorF := (F.sqrt c.1, F.sqrt c.2.1, F.sqrt c.2.2)

/-- Rust's saturating `f32 as u8` cast on a channel scaled by 255
(`From<Color<f32>> for Color<u8>`): truncate toward zero, clamp to `0..=255`,
`nan` to 0. -/
def f32ToU8 (x : F) : ℕ :=
  match x with
  | F.fin q => if q * 255 < 0 then 0 else min 255 (Int.toNat ⌊q * 255⌋)
  | F.inf b => if b then 255 else 0
  | F.nan => 0

/-- `From<Color<f32>> for Color<u8>` applied channelwise. -/
def colorToU8 (c : ColorF) : ColorU8 := (f32ToU8 c.1, f32ToU8 c.2.1, f32ToU8 c.2.2)

/-- The incremental pixel update of `Scene::render` (`src/lib.rs` lines
333-342): `chunk[i] = ((Color::<f32>::from(chunk[i]) * sample_iteration +
color.color_correct()) / (sample_iteration + 1)).into()`, where `color` is
this sweep's per-pixel sample average and `sweep` is the sweep index. -/
def incrementalUpdate (old : ColorU8) (color : ColorF) (sweep : ℕ) : ColorU8 :=
  colorToU8
    (colorDivS
      (colorAdd (colorMulS (colorFromU8 old) (F.fin sweep)) (colorCorrect color))
      (F.add (F.fin sweep) (F.fin 1)))

/-- The running-average fold in the words of the spec (for the refinement
comparison): `new_avg = (old_avg * sweep_index + batch_avg) / (sweep_index +
1)`. -/
def specRunningAverage (oldAvg batchAvg : ColorF) (sweep : ℕ) : ColorF :=
  colorDivS (colorAdd (colorMulS oldAvg (F.fin sweep)) batchAvg)
    (F.add (F.fin sweep) (F.fin 1))

/-- The multiset of shape indices reachable from node `j` (the union of the
leaf ranges of the subtree rooted at `j`), with explicit recursion fuel. -/
def coveredGo (nodes : List Node) : ℕ → ℕ → Multiset ℕ
  | 0, _ => 0
  | fuel + 1, j =>
    match (nodeAt nodes j).kind with
    | NodeKind.leaf s e => ((List.range' s (e - s) : List ℕ) : Multiset ℕ)
    | NodeKind.branch c0 c1 => coveredGo nodes fuel c0 + coveredGo nodes fuel c1

/-- The multiset of shape indices in the subtree of node `j` (`nodes.length`
fuel suffices whenever branch children point strictly downwards). -/
def covered (nodes : List Node) (j : ℕ) : Multiset ℕ := coveredGo nodes nodes.length j

/-- The scanning pass shared by the leaf arm of `closest_shape` and the
brute-force reference: test each listed shape index in order and keep a
strictly closer hit. -/
def scanIdx (shapes : List ShapeData) (ray : Ray) (l : List ℕ) (b : F × ℕ) : F × ℕ :=
  l.foldl
    (fun b i =>
      match (shapeAt shapes i).intersects ray with
      | some time => if F.lt time b.1 then (time, i) else b
      | none => b) b

/-- A hit time that is finite and strictly positive. -/
def finPos : F → Bool
  | F.fin q => decide (0 < q)
  | _ => false

/-- A predicate holding of the payload of a present optional value (`true`
when absent). -/
def optAll (p : F → Bool) : Option F → Bool
  | none => true
  | some t => p t

/-- Two optional hit times differ whenever both are present. -/
def optNe : Option F → Option F → Bool
  | some a, some b => !(a == b)
  | _, _ => true

/-- Every hit any shape index reports for `ray` is finite and strictly
positive (out-of-range indices read the inert default shape, which never
hits). -/
def FinHits (shapes : List ShapeData) (ray : Ray) : Prop :=
  ∀ (i : ℕ) (t : F), (shapeAt shapes i).intersects ray = some t → finPos t = true

/-- No two distinct shape indices report the same hit time for `ray`. -/
def NoTies (shapes : List ShapeData) (ray : Ray) : Prop :=
  ∀ (i j : ℕ) (ti tj : F), i ≠ j →
    (shapeAt shapes i).intersects ray = some ti →
    (shapeAt shapes j).intersects ray = some tj → ti ≠ tj

/-- The box test reports an entry distance no later than the given shape hit
(`true` vacuously when the shape misses). -/
def boxBelow (onode oshape : Option F) : Bool :=
  match oshape with
  | none => true
  | some t =>
    match onode with
    | none => false
    | some d => F.le d t

/-- Every node's slab test reports an entry not later than every hit of every
shape in its subtree: the geometric soundness that the traversal's pruning
relies on (and exactly what fails in the shared-boundary counterexample). -/
def BoxSound (shapes : List ShapeData) (nodes : List Node) (ray : Ray) : Prop :=
  ∀ j, j < nodes.length → ∀ i ∈ covered nodes j,
    boxBelow (BvhNode.intersects (nodeAt nodes j) ray)
      ((shapeAt shapes i).intersects ray) = true

instance BoxSound.dec (shapes : List ShapeData) (nodes : List Node) (ray : Ray) :
    Decidable (BoxSound shapes nodes ray) :=
  decidable_of_iff
    (∀ j, j < nodes.length → ∀ i ∈ covered nodes j,
      boxBelow (BvhNode.intersects (nodeAt nodes j) ray)
        ((shapeAt shapes i).intersects ray) = true) Iff.rfl

/-- Validity of a traversal stack: every entry points into the node array and
records a distance that lower-bounds every hit of every shape in its
subtree. -/
def StackOk (shapes : List ShapeData) (nodes : List Node) (ray : Ray)
    (stack : List (F × ℕ)) : Prop :=
  ∀ p ∈ stack, p.2 < nodes.length ∧
    ∀ i ∈ covered nodes p.2, ∀ t, (shapeAt shapes i).intersects ray = some t →
      F.le p.1 t = true

/-- The running best of the traversal is the infinite sentinel or a finite
time. -/
def BestOk (b : F × ℕ) : Prop := b.1 = F.inf true ∨ ∃ q : ℚ, b.1 = F.fin q

/-- Extensional specification of a scanning pass: starting from `b` and
considering exactly the shape indices of `m`, the result is `b` itself when no
hit in `m` strictly beats it, and otherwise the strictly closest hit of
`m`. -/
def IsFinal (shapes : List ShapeData) (ray : Ray) (b : F × ℕ) (m : Multiset ℕ)
    (r : F × ℕ) : Prop :=
  (r = b ∧ ∀ i ∈ m, ∀ t, (shapeAt shapes i).intersects ray = some t →
    F.lt t b.1 = false) ∨
  (∃ i ∈ m, ∃ t, (shapeAt shapes i).intersects ray = some t ∧ r = (t, i) ∧
    F.lt t b.1 = true ∧
    ∀ j ∈ m, ∀ u, (shapeAt shapes j).intersects ray = some u → F.lt u t = false)

/-- The termination measure of the traversal stack: an entry at node `j` can
generate at most `3 ^ (nodes.length - j)` loop iterations. -/
def stackMeasure (nlen : ℕ) (stack : List (F × ℕ)) : ℕ :=
  (stack.map (fun p => 3 ^ (nlen - p.2))).sum

/-- The multiset of shape indices still to be considered by a traversal
stack. -/
def stackCovered (nodes : List Node) (stack : List (F × ℕ)) : Multiset ℕ :=
  (stack.map (fun p => covered nodes p.2)).sum

/-- The shared postlude of `closest_shape` and the brute-force reference: on a
finite best time, build the `(time, hit_point, normal/texture payload,
material index)` payload. -/
def finishBest (shapes : List ShapeData) (ray : Ray) (best : F × ℕ) :
    Option (F × V3 × (V3 × F × F) × ℕ) :=
  if best.1.isFinite then
    let hitPoint := V3.add ray.origin (V3.smul ray.dir best.1)
    some (best.1, hitPoint, (shapeAt shapes best.2).ntc hitPoint,
      (shapeAt shapes best.2).materialIndex)
  else none

/-- A concrete scene of sixteen unit spheres on the x-axis at `x = 2·i - 14`
(`i = 0, …, 15`, material index `i`): large enough that the SAH build splits
the root (into `0..8` and `8..16`), with the two child boxes sharing the
boundary plane `x = 1`. -/
def scene16 : List ShapeData :=
  (List.range 16).map (fun (i : ℕ) =>
    Sphere.toShape noTranscend ⟨⟨F.fin (2 * (i : ℚ) - 14), F.fin 0, F.fin 0⟩, F.fin 1, i⟩)

/-- The ray from `(1, 0, -10)` along `+z`: its origin lies exactly on the
shared boundary plane `x = 1` of both root children of `scene16`, and its
x-direction is zero, so both slab tests compute `0/0`. -/
def cexRay : Ray :=
  ⟨⟨F.fin 1, F.fin 0, F.fin (-10)⟩, ⟨F.fin 0, F.fin 0, F.fin 1⟩⟩

/-! ### Theorems -/

theorem F.le_nan_left {b : F} (h : F.le F.nan b = true) : False := by simp [F.le] at h

theorem F.ne_nan_of_le_left {a b : F} (h : F.le a b = true) : a ≠ F.nan := by
  intro he; subst he; simp [F.le] at h

theorem F.ne_nan_of_le_right {a b : F} (h : F.le a b = true) : b ≠ F.nan := by
  intro he; subst he; cases a <;> simp [F.le] at h

theorem F.ne_nan_of_lt_left {a b : F} (h : F.lt a b = true) : a ≠ F.nan := by
  intro he; subst he; simp [F.lt] at h

theorem F.ne_nan_of_lt_right {a b : F} (h : F.lt a b = true) : b ≠ F.nan := by
  intro he; subst he; cases a <;> simp [F.lt] at h

theorem F.le_refl {a : F} (h : a ≠ F.nan) : F.le a a = true := by
  cases a with
  | nan => exact absurd rfl h
  | inf b => cases b <;> simp [F.le]
  | fin q => simp [F.le]

theorem F.cases4 (a : F) :
    a = F.nan ∨ a = F.inf true ∨ a = F.inf false ∨ ∃ q, a = F.fin q := by
  cases a with
  | nan => exact Or.inl rfl
  | inf b =>
    cases b with
    | false => exact Or.inr (Or.inr (Or.inl rfl))
    | true => exact Or.inr (Or.inl rfl)
  | fin q => exact Or.inr (Or.inr (Or.inr ⟨q, rfl⟩))

theorem F.le_trans {a b c : F} (h1 : F.le a b = true) (h2 : F.le b c = true) :
    F.le a c = true := by
  rcases F.cases4 a with rfl | rfl | rfl | ⟨qa, rfl⟩ <;>
    rcases F.cases4 b with rfl | rfl | rfl | ⟨qb, rfl⟩ <;>
    rcases F.cases4 c with rfl | rfl | rfl | ⟨qc, rfl⟩ <;>
    simp_all [F.le] <;> linarith

theorem F.lt_of_le_of_lt {a b c : F} (h1 : F.le a b = true) (h2 : F.lt b c = true) :
    F.lt a c = true := by
  rcases F.cases4 a with rfl | rfl | rfl | ⟨qa, rfl⟩ <;>
    rcases F.cases4 b with rfl | rfl | rfl | ⟨qb, rfl⟩ <;>
    rcases F.cases4 c with rfl | rfl | rfl | ⟨qc, rfl⟩ <;>
    simp_all [F.le, F.lt] <;> linarith

theorem F.lt_of_lt_of_le {a b c : F} (h1 : F.lt a b = true) (h2 : F.le b c = true) :
    F.lt a c = true := by
  rcases F.cases4 a with rfl | rfl | rfl | ⟨qa, rfl⟩ <;>
    rcases F.cases4 b with rfl | rfl | rfl | ⟨qb, rfl⟩ <;>
    rcases F.cases4 c with rfl | rfl | rfl | ⟨qc, rfl⟩ <;>
    simp_all [F.le, F.lt] <;> linarith

theorem F.lt_irrefl {a : F} (h : F.lt a a = true) : False := by
  rcases F.cases4 a with rfl | rfl | rfl | ⟨qa, rfl⟩ <;> simp_all [F.lt]

theorem F.le_of_lt {a b : F} (h : F.lt a b = true) : F.le a b = true := by
  rcases F.cases4 a with rfl | rfl | rfl | ⟨qa, rfl⟩ <;>
    rcases F.cases4 b with rfl | rfl | rfl | ⟨qb, rfl⟩ <;>
    simp_all [F.le, F.lt] <;> linarith

theorem F.le_of_not_lt {a b : F} (ha : a ≠ F.nan) (hb : b ≠ F.nan)
    (h : F.lt a b = false) : F.le b a = true := by
  rcases F.cases4 a with rfl | rfl | rfl | ⟨qa, rfl⟩ <;>
    rcases F.cases4 b with rfl | rfl | rfl | ⟨qb, rfl⟩ <;>
    simp_all [F.le, F.lt] <;> linarith

theorem F.not_lt_of_le {a b : F} (h : F.le a b = true) : F.lt b a = false := by
  rcases F.cases4 a with rfl | rfl | rfl | ⟨qa, rfl⟩ <;>
    rcases F.cases4 b with rfl | rfl | rfl | ⟨qb, rfl⟩ <;>
    simp_all [F.le, F.lt] <;> linarith

theorem F.le_antisymm {a b : F} (h1 : F.le a b = true) (h2 : F.le b a = true) : a = b := by
  rcases F.cases4 a with rfl | rfl | rfl | ⟨qa, rfl⟩ <;>
    rcases F.cases4 b with rfl | rfl | rfl | ⟨qb, rfl⟩ <;>
    simp_all [F.le] <;> linarith

/-- C3: for every BVH node and ray, the bounding-box slab test reports a hit
iff `tmax >= tmin && tmax > 0`, where `tmin` is the maximum over the three
axes of the per-axis smaller slab distance (`f32::min` of the two per-axis
distances) and `tmax` the minimum over the axes of the per-axis larger slab
distance, and on a hit it returns `tmin` as the entry distance. -/
theorem C3_slab_test (n : Node) (ray : Ray) :
    BvhNode.intersects n ray =
      (let t1x := F.div (F.sub n.nmin.x ray.origin.x) ray.dir.x
       let t1y := F.div (F.sub n.nmin.y ray.origin.y) ray.dir.y
       let t1z := F.div (F.sub n.nmin.z ray.origin.z) ray.dir.z
       let t2x := F.div (F.sub n.nmax.x ray.origin.x) ray.dir.x
       let t2y := F.div (F.sub n.nmax.y ray.origin.y) ray.dir.y
       let t2z := F.div (F.sub n.nmax.z ray.origin.z) ray.dir.z
       let tmin := F.fmax (F.fmax (F.fmin t1x t2x) (F.fmin t1y t2y)) (F.fmin t1z t2z)
       let tmax := F.fmin (F.fmin (F.fmax t1x t2x) (F.fmax t1y t2y)) (F.fmax t1z t2z)
       if F.ge tmax tmin && F.gt tmax (F.fin 0) then some tmin else none) := rfl

/-- C5: building a BVH over zero shapes yields a single leaf with the empty
shape range `0..0` and the inverted infinite box, and traversing it returns
`None` for every ray (the embedding is total, so no panic or
division-by-zero failure is possible; IEEE division semantics handle the
degenerate extents). -/
theorem C5_empty_scene :
    BvhNode.new ([] : List ShapeData) = ([], [⟨NodeKind.leaf 0 0, V3.pinf, V3.ninf⟩]) ∧
      ∀ ray : Ray, BvhNode.closestShape ray [] (BvhNode.new ([] : List ShapeData)).2 = none := by
  constructor
  · with_unfolding_all rfl
  · intro ray
    with_unfolding_all rfl

/-- C6 counterexample: at sweep 0 with stored pixel black and batch sample
average `(1/4, 1/4, 1/4)`, the renderer stores channel value 127 (it folds the
gamma-corrected average `sqrt (1/4) = 1/2`), while the claimed fold of the raw
sample average would store 63. -/
theorem C6_cex :
    incrementalUpdate (0, 0, 0) (F.fin (1/4), F.fin (1/4), F.fin (1/4)) 0 ≠
      colorToU8
        (specRunningAverage (colorFromU8 (0, 0, 0))
          (F.fin (1/4), F.fin (1/4), F.fin (1/4)) 0) := by
  with_unfolding_all decide

/-- C6 amended: in incremental mode the stored pixel is updated by the
running-average fold `new = (old * sweep_index + batch) / (sweep_index + 1)`
where `old` is the dequantised stored pixel and `batch` is the
gamma-corrected (`sqrt`) per-pixel sample average of the sweep, requantised to
8 bits on store. -/
theorem C6_amended (old : ColorU8) (color : ColorF) (sweep : ℕ) :
    incrementalUpdate old color sweep =
      colorToU8 (specRunningAverage (colorFromU8 old) (colorCorrect color) sweep) := rfl

theorem rayColorIterGo_some_spec (events : ℕ → BounceEvent) :
    ∀ (d k : ℕ) (acc : ColorQ),
      (∃ j, j < d ∧ ∀ c, events (k + j) ≠ BounceEvent.scattered c) →
      rayColorIterGo events d k (some acc) = some (acc * rayColorRec events d k) := by
  intro d
  induction d with
  | zero => intro k acc h; obtain ⟨j, hj, _⟩ := h; omega
  | succ d ih =>
    intro k acc h
    obtain ⟨j, hj, hterm⟩ := h
    match he : events k with
    | BounceEvent.skybox sky => simp [rayColorIterGo, rayColorRec, he]
    | BounceEvent.scattered att =>
      have hj0 : j ≠ 0 := by
        intro h0; subst h0; exact hterm att (by simpa using he)
      have hstep : rayColorIterGo events (d + 1) k (some acc) =
          rayColorIterGo events d (k + 1) (some (acc * att)) := by
        simp [rayColorIterGo, he]
      rw [hstep, ih (k + 1) (acc * att) ⟨j - 1, by omega, by
        intro c hc
        exact hterm c (by rw [show k + 1 + (j - 1) = k + j by omega] at hc; exact hc)⟩]
      simp [rayColorRec, he, mul_assoc]
    | BounceEvent.absorbed => simp [rayColorIterGo, rayColorRec, he]
    | BounceEvent.lightHit c => simp [rayColorIterGo, rayColorRec, he]

theorem rayColorIterGo_none_spec (events : ℕ → BounceEvent) (d k : ℕ)
    (h : ∃ j, j < d ∧ ∀ c, events (k + j) ≠ BounceEvent.scattered c) :
    rayColorIterGo events d k none = some (rayColorRec events d k) := by
  obtain ⟨j, hj, hterm⟩ := h
  match d, hj with
  | d + 1, hj =>
    match he : events k with
    | BounceEvent.skybox sky => simp [rayColorIterGo, rayColorRec, he]
    | BounceEvent.scattered att =>
      have hj0 : j ≠ 0 := by
        intro h0; subst h0; exact hterm att (by simpa using he)
      have hstep : rayColorIterGo events (d + 1) k none =
          rayColorIterGo events d (k + 1)
            (some (((1 : ℚ), (1 : ℚ), (1 : ℚ)) * att)) := by
        simp [rayColorIterGo, he]
      rw [hstep, rayColorIterGo_some_spec events d (k + 1) _ ⟨j - 1, by omega, by
        intro c hc
        exact hterm c (by rw [show k + 1 + (j - 1) = k + j by omega] at hc; exact hc)⟩]
      simp [rayColorRec, he, mul_assoc, one_mul]
    | BounceEvent.absorbed => simp [rayColorIterGo, rayColorRec, he]
    | BounceEvent.lightHit c => simp [rayColorIterGo, rayColorRec, he]

/-- C10 counterexample: with bounce limit 1 and a scatter outcome of
attenuation `(1/2, 1/2, 1/2)` at every bounce, the recursive `ray_color` of
`src/main.rs` returns black (the depth-0 base case) while the iterative
`ray_color` of `src/lib.rs` returns the accumulated attenuation
`(1/2, 1/2, 1/2)`. -/
theorem C10_cex :
    rayColorRec (fun _ => BounceEvent.scattered ((1 : ℚ)/2, (1 : ℚ)/2, (1 : ℚ)/2)) 1 0 ≠
      rayColorIter (fun _ => BounceEvent.scattered ((1 : ℚ)/2, (1 : ℚ)/2, (1 : ℚ)/2)) 1 := by
  with_unfolding_all decide

/-- C10 amended: for the same bounce limit and the same sequence of bounce
outcomes, the recursive `ray_color` (`src/main.rs`) and the iterative
`ray_color` (`src/lib.rs`) agree whenever the bounce limit is zero or some
bounce within the limit is a non-`Scattered` outcome (skybox miss, absorption
or light); when the limit is exhausted on an unbroken `Scattered` chain they
differ as witnessed by the counterexample (recursive: black; iterative:
attenuation product). -/
theorem C10_amended (events : ℕ → BounceEvent) (depth : ℕ)
    (h : depth = 0 ∨ ∃ k, k < depth ∧ ∀ c, events k ≠ BounceEvent.scattered c) :
    rayColorRec events depth 0 = rayColorIter events depth := by
  rcases h with rfl | ⟨k, hk, hterm⟩
  · rfl
  · unfold rayColorIter
    rw [rayColorIterGo_none_spec events depth 0 ⟨k, hk, by simpa using hterm⟩]
    rfl

/-- Closed witness for the amended C10 theorem at a concrete input. -/
theorem C10_amended_witness :
    rayColorRec (fun _ => BounceEvent.absorbed) 3 0 =
      rayColorIter (fun _ => BounceEvent.absorbed) 3 :=
  C10_amended (fun _ => BounceEvent.absorbed) 3
    (Or.inr ⟨0, by omega, fun c h => by simp at h⟩)

theorem shapeAt_mem_or_default (shapes : List ShapeData) (i : ℕ) :
    shapeAt shapes i ∈ shapes ∨ shapeAt shapes i = default := by
  unfold shapeAt
  by_cases h : i < shapes.length
  · left
    rw [List.getD_eq_getElem shapes default h]
    exact List.getElem_mem h
  · right
    rw [List.getD_eq_default shapes default (by omega)]

theorem default_shape_intersects (ray : Ray) :
    (default : ShapeData).intersects ray = none := rfl

/-- Any hit produced by `shapeAt` obeys a property that all member shapes'
hits obey. -/
theorem shapeAt_hit_prop {shapes : List ShapeData} {ray : Ray} {i : ℕ} {t : F}
    {P : F → Prop}
    (hs : ∀ sh ∈ shapes, ∀ u, sh.intersects ray = some u → P u)
    (h : (shapeAt shapes i).intersects ray = some t) : P t := by
  rcases shapeAt_mem_or_default shapes i with hm | hd
  · exact hs _ hm t h
  · rw [hd, default_shape_intersects] at h; cases h

theorem leafScan_preserves {shapes : List ShapeData} {ray : Ray}
    {P : F × ℕ → Prop} (s e : ℕ) (best : F × ℕ)
    (hstep : ∀ (b : F × ℕ) (i : ℕ) (t : F),
      (shapeAt shapes i).intersects ray = some t → P b → F.lt t b.1 = true → P (t, i))
    (hb : P best) : P (BvhNode.leafScan shapes ray s e best) := by
  unfold BvhNode.leafScan
  generalize List.range' s (e - s) = l
  induction l generalizing best with
  | nil => exact hb
  | cons i l ih =>
    simp only [List.foldl_cons]
    apply ih
    match hi : (shapeAt shapes i).intersects ray with
    | some time =>
      simp only [hi]
      by_cases hlt : F.lt time best.1 = true
      · simp only [hlt, if_true]
        exact hstep best i time hi hb hlt
      · simp only [Bool.not_eq_true] at hlt
        simpa [hlt] using hb
    | none => simpa [hi] using hb

theorem closestLoop_preserves {shapes : List ShapeData} {nodes : List Node} {ray : Ray}
    {P : F × ℕ → Prop}
    (hstep : ∀ (b : F × ℕ) (i : ℕ) (t : F),
      (shapeAt shapes i).intersects ray = some t → P b → F.lt t b.1 = true → P (t, i)) :
    ∀ (fuel : ℕ) (stack : List (F × ℕ)) (best : F × ℕ), P best →
      P (BvhNode.closestLoop shapes nodes ray fuel stack best) := by
  intro fuel
  induction fuel with
  | zero => intro stack best hb; exact hb
  | succ fuel ih =>
    intro stack best hb
    match stack with
    | [] => exact hb
    | entry :: stack =>
      unfold BvhNode.closestLoop
      by_cases hskip : F.le best.1 entry.1 = true
      · simp only [hskip, if_true]
        exact ih stack best hb
      · simp only [Bool.not_eq_true] at hskip
        simp only [hskip]
        match hk : (nodeAt nodes entry.2).kind with
        | NodeKind.branch c0 c1 => exact ih _ best hb
        | NodeKind.leaf s e => exact ih stack _ (leafScan_preserves s e best hstep hb)

/-- C8: every distance returned by `Sphere::intersects`, `Plane::intersects`
and `Triangle::intersects` is strictly greater than `MIN_DISTANCE = 0.001`,
and every hit returned by `BvhNode::closest_shape` over shapes with that
guarantee (which the three shape kinds provide) is strictly greater than
`MIN_DISTANCE`; intersections at distance `<= 0.001` are rejected. -/
theorem C8_min_distance :
    (∀ (sp : Sphere) (ray : Ray) (t : F),
        sp.intersects ray = some t → F.gt t minDistance = true) ∧
    (∀ (pl : Plane) (ray : Ray) (t : F),
        pl.intersects ray = some t → F.gt t minDistance = true) ∧
    (∀ (tr : Triangle) (ray : Ray) (t : F),
        tr.intersects ray = some t → F.gt t minDistance = true) ∧
    (∀ (shapes : List ShapeData) (nodes : List Node) (ray : Ray)
        (out : F × V3 × (V3 × F × F) × ℕ),
        (∀ sh ∈ shapes, ∀ t, sh.intersects ray = some t → F.gt t minDistance = true) →
        BvhNode.closestShape ray shapes nodes = some out →
        F.gt out.1 minDistance = true) := by
  refine ⟨?_, ?_, ?_, ?_⟩
  · intro sp ray t h
    simp only [Sphere.intersects] at h
    split at h
    · cases h
    · split at h
      · rename_i hgt
        cases h
        exact hgt
      · split at h
        · rename_i hgt
          cases h
          exact hgt
        · cases h
  · intro pl ray t h
    simp only [Plane.intersects] at h
    split at h
    · cases h
    · split at h
      · rename_i hgt
        cases h
        exact hgt
      · cases h
  · intro tr ray t h
    simp only [Triangle.intersects] at h
    split at h
    · cases h
    · split at h
      · cases h
      · split at h
        · cases h
        · split at h
          · rename_i hgt
            cases h
            exact hgt
          · cases h
  · intro shapes nodes ray out hs h
    unfold BvhNode.closestShape at h
    have hinv : (BvhNode.closestLoop shapes nodes ray (3 ^ nodes.length + 1)
        [(F.fin 0, 0)] (F.inf true, BvhNode.u32Max)).1 = F.inf true ∨
        F.gt (BvhNode.closestLoop shapes nodes ray (3 ^ nodes.length + 1)
          [(F.fin 0, 0)] (F.inf true, BvhNode.u32Max)).1 minDistance = true := by
      apply closestLoop_preserves
        (P := fun b => b.1 = F.inf true ∨ F.gt b.1 minDistance = true)
      · intro b i t hi _ _
        exact Or.inr (shapeAt_hit_prop hs hi)
      · exact Or.inl rfl
    revert h hinv
    generalize BvhNode.closestLoop shapes nodes ray (3 ^ nodes.length + 1)
      [(F.fin 0, 0)] (F.inf true, BvhNode.u32Max) = best
    intro h hinv
    simp only [] at h
    split at h
    · rename_i hfin
      rcases hinv with hinf | hgt
      · rw [hinf] at hfin; cases hfin
      · cases h
        exact hgt
    · cases h

theorem intersects_some_ne_nan {n : Node} {ray : Ray} {d : F}
    (h : BvhNode.intersects n ray = some d) : d ≠ F.nan := by
  unfold BvhNode.intersects at h
  simp only [] at h
  split at h
  · rename_i hcond
    cases h
    simp only [Bool.and_eq_true] at hcond
    exact F.ne_nan_of_le_left hcond.1
  · cases h

theorem qualify_eq_some {o : Option F} {b d : F}
    (h : o.bind (fun x => if F.lt x b then some x else none) = some d) :
    o = some d ∧ F.lt d b = true := by
  cases o with
  | none => cases h
  | some x =>
    simp only [Option.some_bind] at h
    split at h
    · cases h; constructor
      · rfl
      · assumption
    · cases h

theorem qualify_eq_none {o : Option F} {b : F}
    (h : o.bind (fun x => if F.lt x b then some x else none) = none) :
    ∀ x, o = some x → F.lt x b = false := by
  intro x hx
  subst hx
  simp only [Option.some_bind] at h
  split at h
  · cases h
  · simpa using (by assumption : ¬ F.lt x b = true)

/-- C7: in the branch arm of the traversal, a child is pushed exactly when its
bounding box is hit by the ray at an entry distance strictly closer than the
current best hit, and when both children qualify the farther one is pushed
first, so the nearer one (the head of the stack list) is popped first. -/
theorem C7_branch_push_policy (nodes : List Node) (ray : Ray) (best : F × ℕ)
    (stack : List (F × ℕ)) (c0 c1 : ℕ) :
    ∃ pushes : List (F × ℕ),
      BvhNode.stepBranch nodes ray best stack c0 c1 = pushes ++ stack ∧
      (∀ d c, (d, c) ∈ pushes →
        (c = c0 ∨ c = c1) ∧ BvhNode.intersects (nodeAt nodes c) ray = some d ∧
          F.lt d best.1 = true) ∧
      (∀ d, BvhNode.intersects (nodeAt nodes c0) ray = some d →
        F.lt d best.1 = true → (d, c0) ∈ pushes) ∧
      (∀ d, BvhNode.intersects (nodeAt nodes c1) ray = some d →
        F.lt d best.1 = true → (d, c1) ∈ pushes) ∧
      (∀ p q : F × ℕ, pushes = [p, q] → F.le p.1 q.1 = true) := by
  unfold BvhNode.stepBranch
  rcases h0 : (BvhNode.intersects (nodeAt nodes c0) ray).bind
      (fun d => if F.lt d best.1 then some d else none) with _ | d0 <;>
    rcases h1 : (BvhNode.intersects (nodeAt nodes c1) ray).bind
      (fun d => if F.lt d best.1 then some d else none) with _ | d1
  · refine ⟨[], rfl, by simp, ?_, ?_, by simp⟩
    · intro d hd hlt
      rw [qualify_eq_none h0 d hd] at hlt; cases hlt
    · intro d hd hlt
      rw [qualify_eq_none h1 d hd] at hlt; cases hlt
  · obtain ⟨hi1, hlt1⟩ := qualify_eq_some h1
    refine ⟨[(d1, c1)], rfl, ?_, ?_, ?_, by simp⟩
    · intro d c hd
      simp only [List.mem_singleton, Prod.mk.injEq] at hd
      obtain ⟨rfl, rfl⟩ := hd
      exact ⟨Or.inr rfl, hi1, hlt1⟩
    · intro d hd hlt
      rw [qualify_eq_none h0 d hd] at hlt; cases hlt
    · intro d hd hlt
      rw [hi1] at hd
      cases hd
      simp
  · obtain ⟨hi0, hlt0⟩ := qualify_eq_some h0
    refine ⟨[(d0, c0)], rfl, ?_, ?_, ?_, by simp⟩
    · intro d c hd
      simp only [List.mem_singleton, Prod.mk.injEq] at hd
      obtain ⟨rfl, rfl⟩ := hd
      exact ⟨Or.inl rfl, hi0, hlt0⟩
    · intro d hd hlt
      rw [hi0] at hd
      cases hd
      simp
    · intro d hd hlt
      rw [qualify_eq_none h1 d hd] at hlt; cases hlt
  · obtain ⟨hi0, hlt0⟩ := qualify_eq_some h0
    obtain ⟨hi1, hlt1⟩ := qualify_eq_some h1
    have hnn0 : d0 ≠ F.nan := intersects_some_ne_nan hi0
    have hnn1 : d1 ≠ F.nan := intersects_some_ne_nan hi1
    by_cases hcmp : F.lt d0 d1 = true
    · refine ⟨[(d0, c0), (d1, c1)], by simp [hcmp], ?_, ?_, ?_, ?_⟩
      · intro d c hd
        simp only [List.mem_cons, List.mem_singleton, Prod.mk.injEq,
          List.not_mem_nil, or_false] at hd
        rcases hd with ⟨rfl, rfl⟩ | ⟨rfl, rfl⟩
        · exact ⟨Or.inl rfl, hi0, hlt0⟩
        · exact ⟨Or.inr rfl, hi1, hlt1⟩
      · intro d hd hlt
        rw [hi0] at hd; cases hd; simp
      · intro d hd hlt
        rw [hi1] at hd; cases hd; simp
      · intro p q hpq
        cases hpq
        exact F.le_of_lt hcmp
    · simp only [Bool.not_eq_true] at hcmp
      refine ⟨[(d1, c1), (d0, c0)], by simp [hcmp], ?_, ?_, ?_, ?_⟩
      · intro d c hd
        simp only [List.mem_cons, List.mem_singleton, Prod.mk.injEq,
          List.not_mem_nil, or_false] at hd
        rcases hd with ⟨rfl, rfl⟩ | ⟨rfl, rfl⟩
        · exact ⟨Or.inr rfl, hi1, hlt1⟩
        · exact ⟨Or.inl rfl, hi0, hlt0⟩
      · intro d hd hlt
        rw [hi0] at hd; cases hd; simp
      · intro d hd hlt
        rw [hi1] at hd; cases hd; simp
      · intro p q hpq
        cases hpq
        exact F.le_of_not_lt hnn0 hnn1 hcmp

/-- Closed witness for the C7 push-policy theorem at a concrete input. -/
theorem C7_branch_push_policy_witness :
    ∃ pushes : List (F × ℕ),
      BvhNode.stepBranch [] ⟨⟨F.fin 0, F.fin 0, F.fin 0⟩, ⟨F.fin 1, F.fin 1, F.fin 1⟩⟩
          (F.inf true, 0) [] 0 1 = pushes ++ [] ∧
      (∀ d c, (d, c) ∈ pushes →
        (c = 0 ∨ c = 1) ∧
          BvhNode.intersects (nodeAt [] c)
            ⟨⟨F.fin 0, F.fin 0, F.fin 0⟩, ⟨F.fin 1, F.fin 1, F.fin 1⟩⟩ = some d ∧
          F.lt d (F.inf true, (0 : ℕ)).1 = true) ∧
      (∀ d, BvhNode.intersects (nodeAt [] 0)
          ⟨⟨F.fin 0, F.fin 0, F.fin 0⟩, ⟨F.fin 1, F.fin 1, F.fin 1⟩⟩ = some d →
        F.lt d (F.inf true, (0 : ℕ)).1 = true → (d, 0) ∈ pushes) ∧
      (∀ d, BvhNode.intersects (nodeAt [] 1)
          ⟨⟨F.fin 0, F.fin 0, F.fin 0⟩, ⟨F.fin 1, F.fin 1, F.fin 1⟩⟩ = some d →
        F.lt d (F.inf true, (0 : ℕ)).1 = true → (d, 1) ∈ pushes) ∧
      (∀ p q : F × ℕ, pushes = [p, q] → F.le p.1 q.1 = true) :=
  C7_branch_push_policy [] ⟨⟨F.fin 0, F.fin 0, F.fin 0⟩, ⟨F.fin 1, F.fin 1, F.fin 1⟩⟩
    (F.inf true, 0) [] 0 1

theorem findLastSplit_none {p : α → Bool} {xs : List α} (h : findLastSplit p xs = none) :
    ∀ a ∈ xs, p a = false := by
  unfold findLastSplit at h
  rcases hs : xs.reverse.span (fun a => !p a) with ⟨postRev, rest⟩
  rw [hs] at h
  cases rest with
  | cons t midRev => simp at h
  | nil =>
    rw [List.span_eq_take_drop] at hs
    obtain ⟨hs1, hs2⟩ := Prod.mk.injEq .. ▸ hs
    intro a ha
    have hTW : List.takeWhile (fun a => !p a) xs.reverse = xs.reverse := by
      have h0 := List.takeWhile_append_dropWhile (p := fun a => !p a) (l := xs.reverse)
      rw [hs2, List.append_nil] at h0
      exact h0
    have hmem : a ∈ List.takeWhile (fun a => !p a) xs.reverse := by
      rw [hTW]
      simpa using ha
    simpa using List.mem_takeWhile_imp (p := fun a => !p a) hmem

theorem pipGo_spec (p : α → Bool) :
    ∀ (fuel : ℕ) (xs : List α), xs.length ≤ fuel →
      (pipGo p fuel xs).1.Perm xs ∧ (pipGo p fuel xs).2 = xs.countP p := by
  intro fuel
  induction fuel with
  | zero =>
    intro xs h
    have hx : xs = [] := List.eq_nil_of_length_eq_zero (by omega)
    subst hx
    simp [pipGo]
  | succ fuel ih =>
    intro xs hlen
    have hsplit := List.takeWhile_append_dropWhile (p := p) (l := xs)
    have hcntpre : (xs.takeWhile p).countP p = (xs.takeWhile p).length :=
      List.countP_eq_length.mpr (fun a ha => List.mem_takeWhile_imp ha)
    cases hd : xs.dropWhile p with
    | nil =>
      have hres : pipGo p (fuel + 1) xs = (xs.takeWhile p, (xs.takeWhile p).length) := by
        simp only [pipGo, List.span_eq_take_drop, hd]
      have hxs : xs.takeWhile p = xs := by
        have h0 := hsplit
        rw [hd, List.append_nil] at h0
        exact h0
      rw [hres]
      refine ⟨?_, ?_⟩
      · show (xs.takeWhile p).Perm xs
        exact List.Perm.of_eq hxs
      · show (xs.takeWhile p).length = xs.countP p
        conv_rhs => rw [← hxs]
        exact hcntpre.symm
    | cons f rest =>
      have hpf : p f = false := by
        have := List.head?_dropWhile_not p xs
        rw [hd] at this
        simpa using this
      have hxs : xs = xs.takeWhile p ++ f :: rest := by
        have h0 := hsplit
        rw [hd] at h0
        exact h0.symm
      have hpf2 : ¬ p f = true := by simp [hpf]
      cases hfl : findLastSplit p rest with
      | none =>
        have hres : pipGo p (fuel + 1) xs =
            (xs.takeWhile p ++ f :: rest, (xs.takeWhile p).length) := by
          simp only [pipGo, List.span_eq_take_drop, hd, hfl]
        rw [hres]
        refine ⟨?_, ?_⟩
        · show (xs.takeWhile p ++ f :: rest).Perm xs
          exact List.Perm.of_eq hxs.symm
        · show (xs.takeWhile p).length = xs.countP p
          have hrest0 : rest.countP p = 0 := by
            rw [List.countP_eq_zero]
            intro a ha
            simp [findLastSplit_none hfl a ha]
          conv_rhs => rw [hxs]
          rw [List.countP_append, List.countP_cons_of_neg _ _ hpf2, hcntpre, hrest0]
          omega
      | some r3 =>
        obtain ⟨mid, t, post⟩ := r3
        obtain ⟨hrest, hpt, hpost, hmidlen⟩ := findLastSplit_some hfl
        have hres : pipGo p (fuel + 1) xs =
            (xs.takeWhile p ++ t :: ((pipGo p fuel mid).1 ++ f :: post),
              (xs.takeWhile p).length + 1 + (pipGo p fuel mid).2) := by
          simp only [pipGo, List.span_eq_take_drop, hd, hfl]
        have hmidfuel : mid.length ≤ fuel := by
          have h1 : xs.length = (xs.takeWhile p).length + 1 + rest.length := by
            conv_lhs => rw [hxs]
            simp only [List.length_append, List.length_cons]
            omega
          have h2 : rest.length = mid.length + 1 + post.length := by
            rw [hrest]
            simp only [List.length_append, List.length_cons]
            omega
          omega
        obtain ⟨ihp, ihc⟩ := ih mid hmidfuel
        rw [hres]
        refine ⟨?_, ?_⟩
        · show (xs.takeWhile p ++ t :: ((pipGo p fuel mid).1 ++ f :: post)).Perm xs
          have hgoal : (xs.takeWhile p ++ t :: ((pipGo p fuel mid).1 ++ f :: post)).Perm
              (xs.takeWhile p ++ (f :: (mid ++ t :: post))) := by
            refine List.Perm.append_left _ ?_
            exact (List.Perm.cons t List.perm_middle).trans
              ((List.Perm.swap f t _).trans
                ((List.Perm.cons f (List.Perm.cons t (ihp.append_right post))).trans
                  (List.Perm.cons f List.perm_middle.symm)))
          have hxs2 : xs = xs.takeWhile p ++ (f :: (mid ++ t :: post)) := by
            conv_lhs => rw [hxs]
            rw [hrest]
          conv_rhs => rw [hxs2]
          exact hgoal
        · show (xs.takeWhile p).length + 1 + (pipGo p fuel mid).2 = xs.countP p
          have hpostcnt : post.countP p = 0 := by
            rw [List.countP_eq_zero]
            intro a ha
            have := List.all_eq_true.mp hpost a ha
            simpa using this
          conv_rhs => rw [hxs, hrest]
          rw [ihc, List.countP_append, List.countP_cons_of_neg _ _ hpf2,
            List.countP_append, List.countP_cons_of_pos _ _ hpt, hcntpre, hpostcnt]
          ring

theorem partitionInPlace_perm (p : α → Bool) (xs : List α) :
    (partitionInPlace p xs).1.Perm xs :=
  (pipGo_spec p xs.length xs le_rfl).1

theorem partitionInPlace_count (p : α → Bool) (xs : List α) :
    (partitionInPlace p xs).2 = xs.countP p :=
  (pipGo_spec p xs.length xs le_rfl).2

theorem partitionInPlace_length (p : α → Bool) (xs : List α) :
    (partitionInPlace p xs).1.length = xs.length :=
  (partitionInPlace_perm p xs).length_eq

theorem partitionInPlace_count_le (p : α → Bool) (xs : List α) :
    (partitionInPlace p xs).2 ≤ xs.length := by
  rw [partitionInPlace_count]
  exact List.countP_le_length p

theorem nodeAt_congr {l1 l2 : List Node} {k : ℕ} (h : l1[k]? = l2[k]?) :
    nodeAt l1 k = nodeAt l2 k := by
  unfold nodeAt
  rw [List.getD_eq_getElem?_getD, List.getD_eq_getElem?_getD, h]

theorem nodeAt_append_left {l1 l2 : List Node} {k : ℕ} (h : k < l1.length) :
    nodeAt (l1 ++ l2) k = nodeAt l1 k := by
  unfold nodeAt
  rw [List.getD_eq_getElem?_getD, List.getD_eq_getElem?_getD, List.getElem?_append_left h]

theorem nodeAt_set_self {l : List Node} {k : ℕ} {v : Node} (h : k < l.length) :
    nodeAt (l.set k v) k = v := by
  unfold nodeAt
  rw [List.getD_eq_getElem?_getD, List.getElem?_set_self (by simpa using h)]
  rfl

theorem nodeAt_set_ne {l : List Node} {j k : ℕ} {v : Node} (h : j ≠ k) :
    nodeAt (l.set j v) k = nodeAt l k := by
  unfold nodeAt
  rw [List.getD_eq_getElem?_getD, List.getD_eq_getElem?_getD, List.getElem?_set_ne h]

theorem allLeafIndices_append (l1 l2 : List Node) :
    allLeafIndices (l1 ++ l2) = allLeafIndices l1 + allLeafIndices l2 := by
  unfold allLeafIndices
  rw [List.map_append, List.sum_append]

theorem allLeafIndices_singleton (nd : Node) : allLeafIndices [nd] = leafMS nd := by
  simp [allLeafIndices]

theorem allLeafIndices_set (nodes : List Node) :
    ∀ (idx : ℕ) (v : Node), idx < nodes.length →
      allLeafIndices (nodes.set idx v) + leafMS (nodeAt nodes idx) =
        allLeafIndices nodes + leafMS v := by
  induction nodes with
  | nil => intro idx v h; simp at h
  | cons nd nodes ih =>
    intro idx v h
    cases idx with
    | zero =>
      show allLeafIndices (v :: nodes) + leafMS (nodeAt (nd :: nodes) 0) = _
      have h1 : allLeafIndices (v :: nodes) = leafMS v + allLeafIndices nodes := by
        simp [allLeafIndices]
      have h2 : allLeafIndices (nd :: nodes) = leafMS nd + allLeafIndices nodes := by
        simp [allLeafIndices]
      have h3 : nodeAt (nd :: nodes) 0 = nd := rfl
      rw [h1, h2, h3]
      abel
    | succ k =>
      show allLeafIndices (nd :: nodes.set k v) + leafMS (nodeAt (nd :: nodes) (k + 1)) = _
      have h1 : allLeafIndices (nd :: nodes.set k v) =
          leafMS nd + allLeafIndices (nodes.set k v) := by
        simp [allLeafIndices]
      have h2 : allLeafIndices (nd :: nodes) = leafMS nd + allLeafIndices nodes := by
        simp [allLeafIndices]
      have h3 : nodeAt (nd :: nodes) (k + 1) = nodeAt nodes k := rfl
      rw [h1, h2, h3, add_assoc, ih k v (by simpa using h), add_assoc]

theorem nodeAt_append_self {l : List Node} {v : Node} : nodeAt (l ++ [v]) l.length = v := by
  unfold nodeAt
  rw [List.getD_eq_getElem?_getD, List.getElem?_append_right le_rfl]
  simp

theorem nodeAt_append_beyond {l : List Node} {v : Node} {j : ℕ} (h : l.length < j) :
    nodeAt (l ++ [v]) j = default := by
  unfold nodeAt
  rw [List.getD_eq_getElem?_getD, List.getElem?_eq_none (by simp; omega)]
  rfl

theorem nodeAt_oob {l : List Node} {j : ℕ} (h : l.length ≤ j) : nodeAt l j = default := by
  unfold nodeAt
  rw [List.getD_eq_getElem?_getD, List.getElem?_eq_none (by simpa using h)]
  rfl

theorem WFNodes_append_leaf {l : List Node} {s e : ℕ} {a b : V3} (h : WFNodes l) :
    WFNodes (l ++ [⟨NodeKind.leaf s e, a, b⟩]) := by
  intro j c0 c1 hk
  rcases lt_trichotomy j l.length with hj | hj | hj
  · rw [nodeAt_append_left hj] at hk
    obtain ⟨h1, h2, h3, h4⟩ := h j c0 c1 hk
    simp only [List.length_append, List.length_singleton]
    omega
  · subst hj
    rw [show nodeAt (l ++ [(⟨NodeKind.leaf s e, a, b⟩ : Node)]) l.length =
        ⟨NodeKind.leaf s e, a, b⟩ from by
      unfold nodeAt
      rw [List.getD_eq_getElem?_getD, List.getElem?_append_right le_rfl]
      simp] at hk
    cases hk
  · rw [show nodeAt (l ++ [(⟨NodeKind.leaf s e, a, b⟩ : Node)]) j = default from by
      unfold nodeAt
      rw [List.getD_eq_getElem?_getD, List.getElem?_eq_none (by simp; omega)]
      rfl] at hk
    cases hk

theorem subdivide_branch_eq {fuel idx : ℕ} {shapes : List ShapeData} {nodes : List Node}
    {sa : F} {cb0 cb1 : ℕ} (hk : (nodeAt nodes idx).kind = NodeKind.branch cb0 cb1) :
    subdivide (fuel + 1) idx shapes nodes sa = (shapes, nodes) := by
  rw [subdivide, hk]

theorem subdivide_stay_eq {fuel idx : ℕ} {shapes : List ShapeData} {nodes : List Node}
    {sa : F} {s e : ℕ} (hk : (nodeAt nodes idx).kind = NodeKind.leaf s e)
    (hge : F.ge (F.add (F.fin 15)
        (BvhNode.getSplit (nodeAt nodes idx).nmin (nodeAt nodes idx).nmax s e shapes sa).cost)
      (F.mul (F.fin 2) (F.fin ((e - s : ℕ) : ℚ))) = true) :
    subdivide (fuel + 1) idx shapes nodes sa = (shapes, nodes) := by
  rw [subdivide, hk]
  simp only [hge, if_true]

theorem subdivide_split_eq {fuel idx : ℕ} {shapes : List ShapeData} {nodes : List Node}
    {sa : F} {s e : ℕ} (hk : (nodeAt nodes idx).kind = NodeKind.leaf s e)
    (hge : F.ge (F.add (F.fin 15)
        (BvhNode.getSplit (nodeAt nodes idx).nmin (nodeAt nodes idx).nmax s e shapes sa).cost)
      (F.mul (F.fin 2) (F.fin ((e - s : ℕ) : ℚ))) = false) :
    subdivide (fuel + 1) idx shapes nodes sa =
      (let sp := BvhNode.getSplit (nodeAt nodes idx).nmin (nodeAt nodes idx).nmax s e shapes sa
       let pr := partitionInPlace (fun sh => F.lt (sh.centroid.nth sp.axis) sp.value)
         ((shapes.drop s).take (e - s))
       let shapes1 := shapes.take s ++ pr.1 ++ shapes.drop e
       let p := s + pr.2
       let b0 := BvhNode.smallestBounds shapes1 (List.range' s (p - s))
       let nodes1 := nodes ++ [⟨NodeKind.leaf s p, b0.1, b0.2⟩]
       let r0 := subdivide fuel nodes.length shapes1 nodes1 sp.saLt
       let b1 := BvhNode.smallestBounds r0.1 (List.range' p (e - p))
       let nodes2 := r0.2 ++ [⟨NodeKind.leaf p e, b1.1, b1.2⟩]
       let r1 := subdivide fuel r0.2.length r0.1 nodes2 sp.saGe
       (r1.1, r1.2.set idx ⟨NodeKind.branch nodes.length r0.2.length,
         (nodeAt r1.2 idx).nmin, (nodeAt r1.2 idx).nmax⟩)) := by
  rw [subdivide, hk]
  simp only [hge, Bool.false_eq_true, if_false]

/-- The master induction on `BvhNode::subdivide`: lengths grow, the shape
array keeps its length, entries other than `idx` are untouched, the box at
`idx` is preserved, the node at `idx` either stays as it was or becomes a
well-ordered branch, well-formedness is preserved, the multiset of leaf-range
indices is invariant, leaf ranges stay within the shape array, and (for
positive fuel) a leaf is split exactly when `15 + best_cost >= 2 * num`
fails. -/
theorem subdivide_master (fuel : ℕ) :
    ∀ (idx : ℕ) (shapes : List ShapeData) (nodes : List Node) (sa : F),
      idx < nodes.length → WFNodes nodes → RangesOk nodes shapes.length →
      nodes.length ≤ (subdivide fuel idx shapes nodes sa).2.length ∧
      (subdivide fuel idx shapes nodes sa).1.length = shapes.length ∧
      (∀ k, k < nodes.length → k ≠ idx →
        (subdivide fuel idx shapes nodes sa).2[k]? = nodes[k]?) ∧
      (nodeAt (subdivide fuel idx shapes nodes sa).2 idx).nmin = (nodeAt nodes idx).nmin ∧
      (nodeAt (subdivide fuel idx shapes nodes sa).2 idx).nmax = (nodeAt nodes idx).nmax ∧
      (subdivide fuel idx shapes nodes sa = (shapes, nodes) ∨
        ∃ c0 c1,
          (nodeAt (subdivide fuel idx shapes nodes sa).2 idx).kind = NodeKind.branch c0 c1 ∧
          idx < c0 ∧ c0 < c1 ∧ c1 < (subdivide fuel idx shapes nodes sa).2.length) ∧
      WFNodes (subdivide fuel idx shapes nodes sa).2 ∧
      allLeafIndices (subdivide fuel idx shapes nodes sa).2 = allLeafIndices nodes ∧
      RangesOk (subdivide fuel idx shapes nodes sa).2 shapes.length ∧
      (∀ s e, (nodeAt nodes idx).kind = NodeKind.leaf s e → 0 < fuel →
        ((∃ c0 c1, (nodeAt (subdivide fuel idx shapes nodes sa).2 idx).kind =
            NodeKind.branch c0 c1) ↔
          F.ge (F.add (F.fin 15)
              (BvhNode.getSplit (nodeAt nodes idx).nmin (nodeAt nodes idx).nmax s e shapes
                sa).cost)
            (F.mul (F.fin 2) (F.fin ((e - s : ℕ) : ℚ))) = false)) := by
  induction fuel with
  | zero =>
    intro idx shapes nodes sa hidx hwf hro
    refine ⟨le_rfl, rfl, fun k _ _ => rfl, rfl, rfl, Or.inl rfl, hwf, rfl, hro, ?_⟩
    intro s e _ hfuel
    omega
  | succ fuel ih =>
    intro idx shapes nodes sa hidx hwf hro
    rcases hk0 : (nodeAt nodes idx).kind with ⟨cb0, cb1⟩ | ⟨s, e⟩
    · rw [subdivide_branch_eq hk0]
      refine ⟨le_rfl, rfl, fun k _ _ => rfl, rfl, rfl, Or.inl rfl, hwf, rfl, hro, ?_⟩
      intro s e hk1 _
      cases hk1
    · by_cases hge : F.ge (F.add (F.fin 15)
          (BvhNode.getSplit (nodeAt nodes idx).nmin (nodeAt nodes idx).nmax s e shapes
            sa).cost)
          (F.mul (F.fin 2) (F.fin ((e - s : ℕ) : ℚ))) = true
      · rw [subdivide_stay_eq hk0 hge]
        refine ⟨le_rfl, rfl, fun k _ _ => rfl, rfl, rfl, Or.inl rfl, hwf, rfl, hro, ?_⟩
        intro s1 e1 hk1 _
        cases hk1
        constructor
        · intro hex
          obtain ⟨c0, c1, hc⟩ := hex
          have hc2 : (nodeAt nodes idx).kind = NodeKind.branch c0 c1 := hc
          rw [hk0] at hc2
          cases hc2
        · intro hf
          rw [hge] at hf
          cases hf
      · simp only [Bool.not_eq_true] at hge
        set SP := BvhNode.getSplit (nodeAt nodes idx).nmin (nodeAt nodes idx).nmax s e shapes
          sa with hSP
        set PR := partitionInPlace (fun sh => F.lt (sh.centroid.nth SP.axis) SP.value)
          ((shapes.drop s).take (e - s)) with hPR
        set S1 := shapes.take s ++ PR.1 ++ shapes.drop e with hS1
        set B0 := BvhNode.smallestBounds S1 (List.range' s (s + PR.2 - s)) with hB0
        set N1 := nodes ++ [(⟨NodeKind.leaf s (s + PR.2), B0.1, B0.2⟩ : Node)] with hN1
        set R0 := subdivide fuel nodes.length S1 N1 SP.saLt with hR0
        set B1 := BvhNode.smallestBounds R0.1 (List.range' (s + PR.2) (e - (s + PR.2)))
          with hB1
        set N2 := R0.2 ++ [(⟨NodeKind.leaf (s + PR.2) e, B1.1, B1.2⟩ : Node)] with hN2
        set R1 := subdivide fuel R0.2.length R0.1 N2 SP.saGe with hR1
        set V := (⟨NodeKind.branch nodes.length R0.2.length,
          (nodeAt R1.2 idx).nmin, (nodeAt R1.2 idx).nmax⟩ : Node) with hV
        have heq : subdivide (fuel + 1) idx shapes nodes sa = (R1.1, R1.2.set idx V) := by
          rw [subdivide_split_eq hk0 hge]
        have hse : s ≤ e ∧ e ≤ shapes.length := hro idx s e hk0
        have hcnt : PR.2 ≤ e - s := by
          have := partitionInPlace_count_le
            (fun sh => F.lt (sh.centroid.nth SP.axis) SP.value)
            ((shapes.drop s).take (e - s))
          rw [← hPR] at this
          have hlen2 : ((shapes.drop s).take (e - s)).length ≤ e - s := by
            simp [List.length_take]
          omega
        have hPRlen : PR.1.length = ((shapes.drop s).take (e - s)).length := by
          rw [hPR]
          exact partitionInPlace_length _ _
        have hseglen : ((shapes.drop s).take (e - s)).length =
            min (e - s) (shapes.length - s) := by
          rw [List.length_take, List.length_drop]
        have hS1len : S1.length = shapes.length := by
          rw [hS1]
          simp only [List.length_append, hPRlen, hseglen, List.length_take,
            List.length_drop, inf_eq_min]
          omega
        have hN1len : N1.length = nodes.length + 1 := by simp [hN1]
        have hN1wf : WFNodes N1 := WFNodes_append_leaf hwf
        have hro1 : RangesOk N1 S1.length := by
          intro j s1 e1 hkj
          rw [hS1len]
          rcases lt_trichotomy j nodes.length with hj | hj | hj
          · rw [hN1, nodeAt_append_left hj] at hkj
            exact hro j s1 e1 hkj
          · subst hj
            rw [hN1, nodeAt_append_self] at hkj
            cases hkj
            exact ⟨by omega, by omega⟩
          · rw [hN1, nodeAt_append_beyond hj] at hkj
            cases hkj
            exact ⟨le_rfl, Nat.zero_le _⟩
        obtain ⟨hA0, hF0, hB0p, _, _, _, hwf0, hE0, hRO0, _⟩ :=
          ih nodes.length S1 N1 SP.saLt (by omega) hN1wf hro1
        rw [← hR0] at hA0 hF0 hB0p hwf0 hE0 hRO0
        have hN2len : N2.length = R0.2.length + 1 := by simp [hN2]
        have hN2wf : WFNodes N2 := WFNodes_append_leaf hwf0
        have hro2 : RangesOk N2 R0.1.length := by
          intro j s1 e1 hkj
          rw [hF0, hS1len]
          rcases lt_trichotomy j R0.2.length with hj | hj | hj
          · rw [hN2, nodeAt_append_left hj] at hkj
            have hb := hRO0 j s1 e1 hkj
            rw [hS1len] at hb
            exact hb
          · subst hj
            rw [hN2, nodeAt_append_self] at hkj
            cases hkj
            exact ⟨by omega, by omega⟩
          · rw [hN2, nodeAt_append_beyond hj] at hkj
            cases hkj
            exact ⟨le_rfl, Nat.zero_le _⟩
        obtain ⟨hA1, hF1, hB1p, _, _, _, hwf1, hE1, hRO1, _⟩ :=
          ih R0.2.length R0.1 N2 SP.saGe (by omega) hN2wf hro2
        rw [← hR1] at hA1 hF1 hB1p hwf1 hE1 hRO1
        have hidxR0 : idx < R0.2.length := by omega
        have hidxR1 : idx < R1.2.length := by omega
        have hpres : ∀ k, k < nodes.length → R1.2[k]? = nodes[k]? := by
          intro k hkn
          have h1 : R1.2[k]? = N2[k]? := hB1p k (by omega) (by omega)
          have h2 : N2[k]? = R0.2[k]? := by
            rw [hN2, List.getElem?_append_left (by omega)]
          have h3 : R0.2[k]? = N1[k]? := hB0p k (by omega) (by omega)
          have h4 : N1[k]? = nodes[k]? := by
            rw [hN1, List.getElem?_append_left (by omega)]
          rw [h1, h2, h3, h4]
        have hnodeAtR1 : nodeAt R1.2 idx = nodeAt nodes idx := nodeAt_congr (hpres idx hidx)
        have hsetAt : nodeAt (R1.2.set idx V) idx = V := nodeAt_set_self hidxR1
        refine ⟨?_, ?_, ?_, ?_, ?_, ?_, ?_, ?_, ?_, ?_⟩
        · rw [heq]
          simp only [List.length_set]
          omega
        · rw [heq]
          rw [show (R1.1, R1.2.set idx V).1 = R1.1 from rfl, hF1, hF0, hS1len]
        · intro k hkn hkne
          rw [heq]
          show (R1.2.set idx V)[k]? = nodes[k]?
          rw [List.getElem?_set_ne (by omega), hpres k hkn]
        · rw [heq]
          show (nodeAt (R1.2.set idx V) idx).nmin = (nodeAt nodes idx).nmin
          rw [hsetAt, hV]
          show (nodeAt R1.2 idx).nmin = (nodeAt nodes idx).nmin
          rw [hnodeAtR1]
        · rw [heq]
          show (nodeAt (R1.2.set idx V) idx).nmax = (nodeAt nodes idx).nmax
          rw [hsetAt, hV]
          show (nodeAt R1.2 idx).nmax = (nodeAt nodes idx).nmax
          rw [hnodeAtR1]
        · refine Or.inr ⟨nodes.length, R0.2.length, ?_, hidx, by omega, ?_⟩
          · rw [heq]
            show (nodeAt (R1.2.set idx V) idx).kind = _
            rw [hsetAt]
          · rw [heq]
            show R0.2.length < (R1.2.set idx V).length
            simp only [List.length_set]
            omega
        · rw [heq]
          intro j c0 c1 hkb
          by_cases hj : j = idx
          · subst hj
            rw [show nodeAt (R1.1, R1.2.set j V).2 j = V from nodeAt_set_self hidxR1] at hkb
            rw [hV] at hkb
            cases hkb
            simp only [List.length_set]
            exact ⟨hidx, by omega, by omega, by omega⟩
          · rw [show nodeAt (R1.1, R1.2.set idx V).2 j = nodeAt R1.2 j from
              nodeAt_set_ne (fun he => hj he.symm)] at hkb
            obtain ⟨h1, h2, h3, h4⟩ := hwf1 j c0 c1 hkb
            simp only [List.length_set]
            exact ⟨h1, h2, h3, h4⟩
        · rw [heq]
          show allLeafIndices (R1.2.set idx V) = allLeafIndices nodes
          have hx := allLeafIndices_set R1.2 idx V hidxR1
          have hVms : leafMS V = 0 := by simp [hV, leafMS, leafRangeList]
          have holdms : leafMS (nodeAt R1.2 idx) =
              (List.range' s (e - s) : Multiset ℕ) := by
            rw [hnodeAtR1]
            simp [leafMS, leafRangeList, hk0]
          have hranges : (List.range' s (s + PR.2 - s) : Multiset ℕ) +
              (List.range' (s + PR.2) (e - (s + PR.2)) : Multiset ℕ) =
              (List.range' s (e - s) : Multiset ℕ) := by
            have h0 : (List.range' s (s + PR.2 - s) ++
                List.range' (s + PR.2) (e - (s + PR.2)) : List ℕ) =
                List.range' s (e - s) := by
              have hr := List.range'_append_1 s PR.2 (e - (s + PR.2))
              rw [show s + PR.2 - s = PR.2 from by omega]
              rw [hr]
              congr 1
              omega
            rw [← h0]
            simp
          have hchain : allLeafIndices R1.2 = allLeafIndices nodes +
              (List.range' s (s + PR.2 - s) : Multiset ℕ) +
              (List.range' (s + PR.2) (e - (s + PR.2)) : Multiset ℕ) := by
            rw [hE1, hN2, allLeafIndices_append, allLeafIndices_singleton, hE0, hN1,
              allLeafIndices_append, allLeafIndices_singleton]
            simp only [leafMS, leafRangeList]
          rw [hchain, hVms, add_zero, holdms] at hx
          have : allLeafIndices (R1.2.set idx V) +
              (List.range' s (e - s) : Multiset ℕ) =
              allLeafIndices nodes + (List.range' s (e - s) : Multiset ℕ) := by
            rw [hx, add_assoc, hranges]
          exact add_right_cancel this
        · rw [heq]
          intro j s1 e1 hkj
          by_cases hj : j = idx
          · subst hj
            rw [show nodeAt (R1.1, R1.2.set j V).2 j = V from nodeAt_set_self hidxR1] at hkj
            rw [hV] at hkj
            cases hkj
          · rw [show nodeAt (R1.1, R1.2.set idx V).2 j = nodeAt R1.2 j from
              nodeAt_set_ne (fun he => hj he.symm)] at hkj
            have hb := hRO1 j s1 e1 hkj
            rw [hF0, hS1len] at hb
            exact hb
        · intro s1 e1 hk1 _
          cases hk1
          constructor
          · intro _
            exact hge
          · intro _
            refine ⟨nodes.length, R0.2.length, ?_⟩
            rw [heq]
            show (nodeAt (R1.2.set idx V) idx).kind = _
            rw [hsetAt]

theorem WFNodes_single_leaf {s e : ℕ} {a b : V3} :
    WFNodes [(⟨NodeKind.leaf s e, a, b⟩ : Node)] := by
  intro j c0 c1 hk
  cases j with
  | zero => cases hk
  | succ k =>
    rw [nodeAt_oob (by simp)] at hk
    cases hk

theorem RangesOk_single_leaf {s e n : ℕ} {a b : V3} (h1 : s ≤ e) (h2 : e ≤ n) :
    RangesOk [(⟨NodeKind.leaf s e, a, b⟩ : Node)] n := by
  intro j s1 e1 hk
  cases j with
  | zero =>
    cases hk
    exact ⟨h1, h2⟩
  | succ k =>
    rw [nodeAt_oob (by simp)] at hk
    cases hk
    exact ⟨le_rfl, Nat.zero_le _⟩

theorem new_eq (shapes : List ShapeData) :
    BvhNode.new shapes =
      subdivide (shapes.length + 1) 0 shapes
        [⟨NodeKind.leaf 0 shapes.length,
          (BvhNode.smallestBounds shapes (List.range' 0 shapes.length)).1,
          (BvhNode.smallestBounds shapes (List.range' 0 shapes.length)).2⟩]
        (BvhNode.surfaceArea (V3.vector_to
          (BvhNode.smallestBounds shapes (List.range' 0 shapes.length)).1
          (BvhNode.smallestBounds shapes (List.range' 0 shapes.length)).2)) := rfl

theorem new_WFNodes (shapes : List ShapeData) : WFNodes (BvhNode.new shapes).2 := by
  obtain ⟨_, _, _, _, _, _, hwf, _, _, _⟩ :=
    subdivide_master (shapes.length + 1) 0 shapes
      [⟨NodeKind.leaf 0 shapes.length,
        (BvhNode.smallestBounds shapes (List.range' 0 shapes.length)).1,
        (BvhNode.smallestBounds shapes (List.range' 0 shapes.length)).2⟩]
      (BvhNode.surfaceArea (V3.vector_to
        (BvhNode.smallestBounds shapes (List.range' 0 shapes.length)).1
        (BvhNode.smallestBounds shapes (List.range' 0 shapes.length)).2))
      (by simp) WFNodes_single_leaf (RangesOk_single_leaf (Nat.zero_le _) le_rfl)
  rw [new_eq]
  exact hwf

/-- C2: for every shape array of size `n`, the multiset of shape indices
covered by the leaf ranges of the node array built by `BvhNode::new` is
exactly `{0, …, n-1}`: the leaf ranges are pairwise disjoint and their union
is the full index range, each index appearing in exactly one leaf. -/
theorem C2_leaf_partition (shapes : List ShapeData) :
    allLeafIndices (BvhNode.new shapes).2 = Multiset.range shapes.length ∧
    ∀ i : ℕ, Multiset.count i (allLeafIndices (BvhNode.new shapes).2) =
      if i < shapes.length then 1 else 0 := by
  obtain ⟨_, _, _, _, _, _, _, hE, _, _⟩ :=
    subdivide_master (shapes.length + 1) 0 shapes
      [⟨NodeKind.leaf 0 shapes.length,
        (BvhNode.smallestBounds shapes (List.range' 0 shapes.length)).1,
        (BvhNode.smallestBounds shapes (List.range' 0 shapes.length)).2⟩]
      (BvhNode.surfaceArea (V3.vector_to
        (BvhNode.smallestBounds shapes (List.range' 0 shapes.length)).1
        (BvhNode.smallestBounds shapes (List.range' 0 shapes.length)).2))
      (by simp) WFNodes_single_leaf (RangesOk_single_leaf (Nat.zero_le _) le_rfl)
  have hmain : allLeafIndices (BvhNode.new shapes).2 = Multiset.range shapes.length := by
    rw [new_eq, hE, allLeafIndices_singleton]
    simp [leafMS, leafRangeList, Multiset.range, List.range_eq_range']
  refine ⟨hmain, fun i => ?_⟩
  rw [hmain]
  by_cases hi : i < shapes.length
  · rw [if_pos hi]
    exact Multiset.count_eq_one_of_mem (Multiset.nodup_range _) (Multiset.mem_range.mpr hi)
  · rw [if_neg hi]
    exact Multiset.count_eq_zero_of_not_mem (fun hm => hi (Multiset.mem_range.mp hm))

/-- C9: in the node array produced by `BvhNode::new`, every branch node's two
child indices are strictly greater than the node's own index and strictly
less than the array length (so following children strictly increases the
index, the graph is acyclic, and traversal stays in bounds). -/
theorem C9_branch_child_bounds (shapes : List ShapeData) :
    ∀ j c0 c1, (nodeAt (BvhNode.new shapes).2 j).kind = NodeKind.branch c0 c1 →
      j < c0 ∧ j < c1 ∧ c0 < (BvhNode.new shapes).2.length ∧
        c1 < (BvhNode.new shapes).2.length :=
  fun j c0 c1 hk => new_WFNodes shapes j c0 c1 hk

/-- Closed witness for C9 at a concrete input: the root of the BVH built over
`scene16` is the branch with children `1` and `2`, which are strictly greater
than the root index `0` and strictly within the node array. -/
theorem C9_witness :
    0 < 1 ∧ 0 < 2 ∧ 1 < (BvhNode.new scene16).2.length ∧
      2 < (BvhNode.new scene16).2.length :=
  C9_branch_child_bounds scene16 0 1 2 (by with_unfolding_all decide)

/-- C4: `subdivide` leaves a leaf of range `s..e` unsplit (returning both
arrays unchanged) exactly when `15 + best_cost >= 2 * (e - s)` holds under
IEEE comparison, and turns it into a branch exactly when that test fails. -/
theorem C4_split_stop_policy (fuel idx : ℕ) (shapes : List ShapeData)
    (nodes : List Node) (sa : F) (s e : ℕ) (hidx : idx < nodes.length)
    (hwf : WFNodes nodes) (hro : RangesOk nodes shapes.length)
    (hk : (nodeAt nodes idx).kind = NodeKind.leaf s e) (hfuel : 0 < fuel) :
    (subdivide fuel idx shapes nodes sa = (shapes, nodes) ↔
      F.ge (F.add (F.fin 15)
          (BvhNode.getSplit (nodeAt nodes idx).nmin (nodeAt nodes idx).nmax s e shapes
            sa).cost)
        (F.mul (F.fin 2) (F.fin ((e - s : ℕ) : ℚ))) = true) ∧
    ((∃ c0 c1, (nodeAt (subdivide fuel idx shapes nodes sa).2 idx).kind =
        NodeKind.branch c0 c1) ↔
      F.ge (F.add (F.fin 15)
          (BvhNode.getSplit (nodeAt nodes idx).nmin (nodeAt nodes idx).nmax s e shapes
            sa).cost)
        (F.mul (F.fin 2) (F.fin ((e - s : ℕ) : ℚ))) = false) := by
  obtain ⟨_, _, _, _, _, _, _, _, _, hG⟩ :=
    subdivide_master fuel idx shapes nodes sa hidx hwf hro
  have hGk := hG s e hk hfuel
  refine ⟨?_, hGk⟩
  constructor
  · intro hstay
    by_contra hne
    have hfalse : F.ge (F.add (F.fin 15)
        (BvhNode.getSplit (nodeAt nodes idx).nmin (nodeAt nodes idx).nmax s e shapes
          sa).cost)
        (F.mul (F.fin 2) (F.fin ((e - s : ℕ) : ℚ))) = false := by
      cases hb : F.ge (F.add (F.fin 15)
          (BvhNode.getSplit (nodeAt nodes idx).nmin (nodeAt nodes idx).nmax s e shapes
            sa).cost)
          (F.mul (F.fin 2) (F.fin ((e - s : ℕ) : ℚ)))
      · rfl
      · exact absurd hb hne
    obtain ⟨c0, c1, hbr⟩ := hGk.mpr hfalse
    rw [hstay] at hbr
    have hbr2 : (nodeAt nodes idx).kind = NodeKind.branch c0 c1 := hbr
    rw [hk] at hbr2
    cases hbr2
  · intro hge
    obtain ⟨fuel2, rfl⟩ : ∃ fuel2, fuel = fuel2 + 1 := ⟨fuel - 1, by omega⟩
    exact subdivide_stay_eq hk hge

/-- Closed witness for C4 at a concrete input: a single-shape leaf is left
unsplit (`15 + best_cost >= 2·1` holds, so both arrays come back
unchanged). -/
theorem C4_witness :
    subdivide 1 0 [Sphere.toShape noTranscend ⟨⟨F.fin 0, F.fin 0, F.fin 5⟩, F.fin 1, 0⟩]
      [⟨NodeKind.leaf 0 1, ⟨F.fin (-1), F.fin (-1), F.fin 4⟩,
        ⟨F.fin 1, F.fin 1, F.fin 6⟩⟩] (F.fin 1) =
      ([Sphere.toShape noTranscend ⟨⟨F.fin 0, F.fin 0, F.fin 5⟩, F.fin 1, 0⟩],
       [⟨NodeKind.leaf 0 1, ⟨F.fin (-1), F.fin (-1), F.fin 4⟩,
         ⟨F.fin 1, F.fin 1, F.fin 6⟩⟩]) :=
  (C4_split_stop_policy 1 0
    [Sphere.toShape noTranscend ⟨⟨F.fin 0, F.fin 0, F.fin 5⟩, F.fin 1, 0⟩]
    [⟨NodeKind.leaf 0 1, ⟨F.fin (-1), F.fin (-1), F.fin 4⟩,
      ⟨F.fin 1, F.fin 1, F.fin 6⟩⟩] (F.fin 1) 0 1 (by decide)
    WFNodes_single_leaf (RangesOk_single_leaf (by decide) (by decide))
    rfl (by decide)).1.mpr (by with_unfolding_all decide)

/-- Closed witness for C8 at a concrete input: a unit sphere at `(0,0,5)` hit
by the ray from the origin along `+z`, through a freshly built single-leaf
BVH, at distance 4 > 0.001. -/
theorem C8_witness : F.gt (F.fin 4) minDistance = true := by
  have hmem : ∀ sh ∈ [Sphere.toShape noTranscend
        ⟨⟨F.fin 0, F.fin 0, F.fin 5⟩, F.fin 1, 0⟩],
      ∀ t, sh.intersects ⟨⟨F.fin 0, F.fin 0, F.fin 0⟩, ⟨F.fin 0, F.fin 0, F.fin 1⟩⟩ =
        some t → F.gt t minDistance = true := by
    intro sh hm t ht
    simp only [List.mem_singleton] at hm
    subst hm
    exact C8_min_distance.1 _ _ t ht
  exact C8_min_distance.2.2.2
    [Sphere.toShape noTranscend ⟨⟨F.fin 0, F.fin 0, F.fin 5⟩, F.fin 1, 0⟩]
    (BvhNode.new [Sphere.toShape noTranscend
      ⟨⟨F.fin 0, F.fin 0, F.fin 5⟩, F.fin 1, 0⟩]).2
    ⟨⟨F.fin 0, F.fin 0, F.fin 0⟩, ⟨F.fin 0, F.fin 0, F.fin 1⟩⟩
    (F.fin 4, ⟨F.fin 0, F.fin 0, F.fin 4⟩,
      (⟨F.fin 0, F.fin 0, F.fin (-1)⟩, F.nan, F.nan), 0)
    hmem (by with_unfolding_all decide)


theorem shapeAt_oob {shapes : List ShapeData} {i : ℕ} (h : shapes.length ≤ i) :
    shapeAt shapes i = default := by
  unfold shapeAt
  rw [List.getD_eq_getElem?_getD, List.getElem?_eq_none (by simpa using h)]
  rfl

theorem coveredGo_succ (nodes : List Node) (fuel j : ℕ) :
    coveredGo nodes (fuel + 1) j =
      match (nodeAt nodes j).kind with
      | NodeKind.leaf s e => ((List.range' s (e - s) : List ℕ) : Multiset ℕ)
      | NodeKind.branch c0 c1 => coveredGo nodes fuel c0 + coveredGo nodes fuel c1 := rfl

theorem coveredGo_succ_stable {nodes : List Node} (hwf : WFNodes nodes) :
    ∀ (fuel j : ℕ), nodes.length ≤ fuel + j →
      coveredGo nodes (fuel + 1) j = coveredGo nodes fuel j := by
  intro fuel
  induction fuel with
  | zero =>
    intro j hj
    have hd : nodeAt nodes j = default := nodeAt_oob (by omega)
    rw [coveredGo_succ, hd]
    rfl
  | succ fuel ih =>
    intro j hj
    rcases hk : (nodeAt nodes j).kind with ⟨c0, c1⟩ | ⟨s, e⟩
    · obtain ⟨h1, h2, h3, h4⟩ := hwf j c0 c1 hk
      rw [coveredGo_succ, coveredGo_succ, hk]
      show coveredGo nodes (fuel + 1) c0 + coveredGo nodes (fuel + 1) c1 =
        coveredGo nodes fuel c0 + coveredGo nodes fuel c1
      rw [ih c0 (by omega), ih c1 (by omega)]
    · rw [coveredGo_succ, coveredGo_succ, hk]

theorem coveredGo_add {nodes : List Node} (hwf : WFNodes nodes) :
    ∀ (d fuel j : ℕ), nodes.length ≤ fuel + j →
      coveredGo nodes (fuel + d) j = coveredGo nodes fuel j := by
  intro d
  induction d with
  | zero => intro fuel j _; rfl
  | succ d ih =>
    intro fuel j hj
    rw [show fuel + (d + 1) = (fuel + d) + 1 from rfl,
      coveredGo_succ_stable hwf (fuel + d) j (by omega), ih fuel j hj]

theorem coveredGo_eq_covered {nodes : List Node} (hwf : WFNodes nodes)
    (fuel j : ℕ) (h : nodes.length ≤ fuel + j) :
    coveredGo nodes fuel j = covered nodes j := by
  show coveredGo nodes fuel j = coveredGo nodes nodes.length j
  rcases le_total fuel nodes.length with hf | hf
  · rw [show nodes.length = fuel + (nodes.length - fuel) from by omega,
      coveredGo_add hwf (nodes.length - fuel) fuel j h]
  · rw [show fuel = nodes.length + (fuel - nodes.length) from by omega,
      coveredGo_add hwf (fuel - nodes.length) nodes.length j (by omega)]

theorem covered_leaf {nodes : List Node} {j s e : ℕ}
    (hk : (nodeAt nodes j).kind = NodeKind.leaf s e) :
    covered nodes j = ((List.range' s (e - s) : List ℕ) : Multiset ℕ) := by
  show coveredGo nodes nodes.length j = _
  cases hn : nodes.length with
  | zero =>
    have hd : nodeAt nodes j = default := nodeAt_oob (by omega)
    rw [hd] at hk
    cases hk
    rfl
  | succ m => rw [coveredGo_succ, hk]

theorem covered_branch {nodes : List Node} {j c0 c1 : ℕ} (hwf : WFNodes nodes)
    (hk : (nodeAt nodes j).kind = NodeKind.branch c0 c1) :
    covered nodes j = covered nodes c0 + covered nodes c1 := by
  obtain ⟨h1, h2, h3, h4⟩ := hwf j c0 c1 hk
  show coveredGo nodes nodes.length j = _
  rw [show nodes.length = (nodes.length - 1) + 1 from by omega, coveredGo_succ, hk]
  show coveredGo nodes (nodes.length - 1) c0 + coveredGo nodes (nodes.length - 1) c1 = _
  rw [coveredGo_eq_covered hwf (nodes.length - 1) c0 (by omega),
    coveredGo_eq_covered hwf (nodes.length - 1) c1 (by omega)]

theorem finPos_fin {t : F} (h : finPos t = true) : ∃ q : ℚ, t = F.fin q ∧ 0 < q := by
  cases t with
  | nan => cases h
  | inf b => cases h
  | fin q => exact ⟨q, rfl, by simpa [finPos] using h⟩

theorem F.lt_self (a : F) : F.lt a a = false := by
  rcases F.cases4 a with rfl | rfl | rfl | ⟨q, rfl⟩ <;> simp [F.lt]

theorem bestOk_ne_nan {b : F × ℕ} (h : BestOk b) : b.1 ≠ F.nan := by
  rcases h with h | ⟨q, h⟩ <;> rw [h] <;> intro hc <;> cases hc

theorem scanIdx_nil (shapes : List ShapeData) (ray : Ray) (b : F × ℕ) :
    scanIdx shapes ray [] b = b := rfl

theorem scanIdx_cons (shapes : List ShapeData) (ray : Ray) (i : ℕ) (l : List ℕ)
    (b : F × ℕ) :
    scanIdx shapes ray (i :: l) b =
      scanIdx shapes ray l
        (match (shapeAt shapes i).intersects ray with
         | some time => if F.lt time b.1 then (time, i) else b
         | none => b) := rfl

theorem leafScan_eq_scan (shapes : List ShapeData) (ray : Ray) (s e : ℕ) (b : F × ℕ) :
    BvhNode.leafScan shapes ray s e b = scanIdx shapes ray (List.range' s (e - s)) b := rfl

theorem bruteForceLoop_eq_scan (ray : Ray) (shapes : List ShapeData) :
    BvhNode.bruteForceLoop ray shapes =
      scanIdx shapes ray (List.range shapes.length) (F.inf true, BvhNode.u32Max) := rfl

theorem closestShape_eq_finish (ray : Ray) (shapes : List ShapeData) (nodes : List Node) :
    BvhNode.closestShape ray shapes nodes =
      finishBest shapes ray (BvhNode.closestLoop shapes nodes ray (3 ^ nodes.length + 1)
        [(F.fin 0, 0)] (F.inf true, BvhNode.u32Max)) := rfl

theorem bruteForceClosest_eq_finish (ray : Ray) (shapes : List ShapeData) :
    BvhNode.bruteForceClosest ray shapes =
      finishBest shapes ray (BvhNode.bruteForceLoop ray shapes) := rfl

theorem stackMeasure_cons (nlen : ℕ) (p : F × ℕ) (stack : List (F × ℕ)) :
    stackMeasure nlen (p :: stack) = 3 ^ (nlen - p.2) + stackMeasure nlen stack := by
  simp [stackMeasure]

theorem stackCovered_cons (nodes : List Node) (p : F × ℕ) (stack : List (F × ℕ)) :
    stackCovered nodes (p :: stack) = covered nodes p.2 + stackCovered nodes stack := by
  simp [stackCovered]

theorem box_entry_le {nd : Node} {shapes : List ShapeData} {ray : Ray} {i : ℕ} {t d : F}
    (hbb : boxBelow (BvhNode.intersects nd ray) ((shapeAt shapes i).intersects ray) = true)
    (ht : (shapeAt shapes i).intersects ray = some t)
    (hd : BvhNode.intersects nd ray = some d) : F.le d t = true := by
  rw [ht, hd] at hbb
  simpa [boxBelow] using hbb

theorem box_none_no_hit {nd : Node} {shapes : List ShapeData} {ray : Ray} {i : ℕ} {t : F}
    (hbb : boxBelow (BvhNode.intersects nd ray) ((shapeAt shapes i).intersects ray) = true)
    (ht : (shapeAt shapes i).intersects ray = some t)
    (hn : BvhNode.intersects nd ray = none) : False := by
  rw [ht, hn] at hbb
  simp [boxBelow] at hbb

theorem scanIdx_isFinal {shapes : List ShapeData} {ray : Ray} (hfin : FinHits shapes ray) :
    ∀ (l : List ℕ) (b : F × ℕ), BestOk b →
      IsFinal shapes ray b (↑l) (scanIdx shapes ray l b) ∧
        BestOk (scanIdx shapes ray l b) := by
  intro l
  induction l with
  | nil =>
    intro b hb
    refine ⟨Or.inl ⟨rfl, ?_⟩, hb⟩
    intro i hi
    simp at hi
  | cons i l ih =>
    intro b hb
    rw [scanIdx_cons]
    cases hi : (shapeAt shapes i).intersects ray with
    | none =>
      show IsFinal shapes ray b ↑(i :: l) (scanIdx shapes ray l b) ∧
        BestOk (scanIdx shapes ray l b)
      obtain ⟨hIF, hBO⟩ := ih b hb
      refine ⟨?_, hBO⟩
      rcases hIF with ⟨hr, hall⟩ | ⟨i1, hm1, t1, ht1, hr1, hlt1, hmin1⟩
      · refine Or.inl ⟨hr, ?_⟩
        intro j hjm u hu
        rw [Multiset.mem_coe, List.mem_cons] at hjm
        rcases hjm with rfl | hjm
        · rw [hi] at hu; cases hu
        · exact hall j (Multiset.mem_coe.mpr hjm) u hu
      · refine Or.inr ⟨i1, ?_, t1, ht1, hr1, hlt1, ?_⟩
        · rw [Multiset.mem_coe] at hm1 ⊢
          exact List.mem_cons_of_mem i hm1
        · intro j hjm u hu
          rw [Multiset.mem_coe, List.mem_cons] at hjm
          rcases hjm with rfl | hjm
          · rw [hi] at hu; cases hu
          · exact hmin1 j (Multiset.mem_coe.mpr hjm) u hu
    | some t =>
      have hfp := hfin i t hi
      obtain ⟨q, htq, hq⟩ := finPos_fin hfp
      show IsFinal shapes ray b ↑(i :: l)
          (scanIdx shapes ray l (if F.lt t b.1 then (t, i) else b)) ∧
        BestOk (scanIdx shapes ray l (if F.lt t b.1 then (t, i) else b))
      by_cases hlt : F.lt t b.1 = true
      · rw [if_pos hlt]
        have hb2 : BestOk (t, i) := Or.inr ⟨q, htq⟩
        obtain ⟨hIF, hBO⟩ := ih (t, i) hb2
        refine ⟨?_, hBO⟩
        rcases hIF with ⟨hr, hall⟩ | ⟨i1, hm1, t1, ht1, hr1, hlt1, hmin1⟩
        · refine Or.inr ⟨i, ?_, t, hi, hr, hlt, ?_⟩
          · rw [Multiset.mem_coe]
            exact List.mem_cons_self i l
          · intro j hjm u hu
            rw [Multiset.mem_coe, List.mem_cons] at hjm
            rcases hjm with rfl | hjm
            · rw [hi] at hu
              cases hu
              exact F.lt_self t
            · exact hall j (Multiset.mem_coe.mpr hjm) u hu
        · refine Or.inr ⟨i1, ?_, t1, ht1, hr1, ?_, ?_⟩
          · rw [Multiset.mem_coe] at hm1 ⊢
            exact List.mem_cons_of_mem i hm1
          · exact F.lt_of_le_of_lt (F.le_of_lt hlt1) hlt
          · intro j hjm u hu
            rw [Multiset.mem_coe, List.mem_cons] at hjm
            rcases hjm with rfl | hjm
            · rw [hi] at hu
              cases hu
              exact F.not_lt_of_le (F.le_of_lt hlt1)
            · exact hmin1 j (Multiset.mem_coe.mpr hjm) u hu
      · have hltf : F.lt t b.1 = false := by
          cases hb2 : F.lt t b.1
          · rfl
          · exact absurd hb2 hlt
        rw [if_neg hlt]
        obtain ⟨hIF, hBO⟩ := ih b hb
        refine ⟨?_, hBO⟩
        rcases hIF with ⟨hr, hall⟩ | ⟨i1, hm1, t1, ht1, hr1, hlt1, hmin1⟩
        · refine Or.inl ⟨hr, ?_⟩
          intro j hjm u hu
          rw [Multiset.mem_coe, List.mem_cons] at hjm
          rcases hjm with rfl | hjm
          · rw [hi] at hu; cases hu; exact hltf
          · exact hall j (Multiset.mem_coe.mpr hjm) u hu
        · refine Or.inr ⟨i1, ?_, t1, ht1, hr1, hlt1, ?_⟩
          · rw [Multiset.mem_coe] at hm1 ⊢
            exact List.mem_cons_of_mem i hm1
          · intro j hjm u hu
            rw [Multiset.mem_coe, List.mem_cons] at hjm
            rcases hjm with rfl | hjm
            · rw [hi] at hu
              cases hu
              have hble : F.le b.1 t = true :=
                F.le_of_not_lt (by rw [htq]; intro hc; cases hc) (bestOk_ne_nan hb) hltf
              exact F.not_lt_of_le (F.le_of_lt (F.lt_of_lt_of_le hlt1 hble))
            · exact hmin1 j (Multiset.mem_coe.mpr hjm) u hu

theorem isFinal_absorb {shapes : List ShapeData} {ray : Ray} {b : F × ℕ}
    {ms m : Multiset ℕ} {r : F × ℕ} (hfin : FinHits shapes ray) (hb : BestOk b)
    (habs : ∀ i ∈ ms, ∀ t, (shapeAt shapes i).intersects ray = some t →
      F.lt t b.1 = false)
    (h : IsFinal shapes ray b m r) : IsFinal shapes ray b (ms + m) r := by
  rcases h with ⟨hr, hall⟩ | ⟨i1, hm1, t1, ht1, hr1, hlt1, hmin1⟩
  · refine Or.inl ⟨hr, ?_⟩
    intro j hjm u hu
    rw [Multiset.mem_add] at hjm
    rcases hjm with hjm | hjm
    · exact habs j hjm u hu
    · exact hall j hjm u hu
  · refine Or.inr ⟨i1, Multiset.mem_add.mpr (Or.inr hm1), t1, ht1, hr1, hlt1, ?_⟩
    intro j hjm u hu
    rw [Multiset.mem_add] at hjm
    rcases hjm with hjm | hjm
    · have hltf := habs j hjm u hu
      obtain ⟨qu, hqu, _⟩ := finPos_fin (hfin j u hu)
      have hble : F.le b.1 u = true :=
        F.le_of_not_lt (by rw [hqu]; intro hc; cases hc) (bestOk_ne_nan hb) hltf
      exact F.not_lt_of_le (F.le_of_lt (F.lt_of_lt_of_le hlt1 hble))
    · exact hmin1 j hjm u hu

theorem isFinal_compose {shapes : List ShapeData} {ray : Ray} {b b' r : F × ℕ}
    {m1 m2 : Multiset ℕ} (hfin : FinHits shapes ray) (hb : BestOk b)
    (h1 : IsFinal shapes ray b m1 b') (h2 : IsFinal shapes ray b' m2 r) :
    IsFinal shapes ray b (m1 + m2) r := by
  rcases h1 with ⟨hr, hall⟩ | ⟨i1, hm1, t1, ht1, hr1, hlt1, hmin1⟩
  · rw [hr] at h2
    exact isFinal_absorb hfin hb hall h2
  · rcases h2 with ⟨hr2, hall2⟩ | ⟨i2, hm2, t2, ht2, hr2, hlt2, hmin2⟩
    · refine Or.inr ⟨i1, Multiset.mem_add.mpr (Or.inl hm1), t1, ht1, hr2.trans hr1,
        hlt1, ?_⟩
      intro j hjm u hu
      rw [Multiset.mem_add] at hjm
      rcases hjm with hjm | hjm
      · exact hmin1 j hjm u hu
      · have := hall2 j hjm u hu
        rw [hr1] at this
        exact this
    · rw [hr1] at hlt2
      refine Or.inr ⟨i2, Multiset.mem_add.mpr (Or.inr hm2), t2, ht2, hr2,
        F.lt_of_le_of_lt (F.le_of_lt hlt2) hlt1, ?_⟩
      intro j hjm u hu
      rw [Multiset.mem_add] at hjm
      rcases hjm with hjm | hjm
      · have hnlt := hmin1 j hjm u hu
        obtain ⟨q1, hq1, _⟩ := finPos_fin (hfin i1 t1 ht1)
        obtain ⟨qu, hqu, _⟩ := finPos_fin (hfin j u hu)
        have hble : F.le t1 u = true :=
          F.le_of_not_lt (by rw [hqu]; intro hc; cases hc)
            (by rw [hq1]; intro hc; cases hc) hnlt
        exact F.not_lt_of_le (F.le_of_lt (F.lt_of_lt_of_le hlt2 hble))
      · exact hmin2 j hjm u hu

theorem isFinal_unique {shapes : List ShapeData} {ray : Ray} {b r1 r2 : F × ℕ}
    {m : Multiset ℕ} (hfin : FinHits shapes ray) (hties : NoTies shapes ray)
    (h1 : IsFinal shapes ray b m r1) (h2 : IsFinal shapes ray b m r2) : r1 = r2 := by
  rcases h1 with ⟨hr1, hall1⟩ | ⟨i1, hm1, t1, ht1, hr1, hlt1, hmin1⟩ <;>
    rcases h2 with ⟨hr2, hall2⟩ | ⟨i2, hm2, t2, ht2, hr2, hlt2, hmin2⟩
  · rw [hr1, hr2]
  · rw [hall1 i2 hm2 t2 ht2] at hlt2
    cases hlt2
  · rw [hall2 i1 hm1 t1 ht1] at hlt1
    cases hlt1
  · by_cases hij : i1 = i2
    · subst hij
      rw [ht1] at ht2
      cases ht2
      rw [hr1, hr2]
    · obtain ⟨q1, hq1, _⟩ := finPos_fin (hfin i1 t1 ht1)
      obtain ⟨q2, hq2, _⟩ := finPos_fin (hfin i2 t2 ht2)
      have hne := hties i1 i2 t1 t2 hij ht1 ht2
      have h12 := hmin1 i2 hm2 t2 ht2
      have h21 := hmin2 i1 hm1 t1 ht1
      rw [hq1, hq2] at hne h12 h21
      simp [F.lt] at h12 h21
      exact absurd (by rw [show q1 = q2 from by linarith]) hne

theorem closestLoop_cons (shapes : List ShapeData) (nodes : List Node) (ray : Ray)
    (fuel : ℕ) (p : F × ℕ) (rest : List (F × ℕ)) (best : F × ℕ) :
    BvhNode.closestLoop shapes nodes ray (fuel + 1) (p :: rest) best =
      if F.le best.1 p.1 then BvhNode.closestLoop shapes nodes ray fuel rest best
      else
        match (nodeAt nodes p.2).kind with
        | NodeKind.branch c0 c1 =>
          BvhNode.closestLoop shapes nodes ray fuel
            (BvhNode.stepBranch nodes ray best rest c0 c1) best
        | NodeKind.leaf s e =>
          BvhNode.closestLoop shapes nodes ray fuel rest
            (BvhNode.leafScan shapes ray s e best) := rfl

theorem stepBranch_def (nodes : List Node) (ray : Ray) (best : F × ℕ)
    (stack : List (F × ℕ)) (c0 c1 : ℕ) :
    BvhNode.stepBranch nodes ray best stack c0 c1 =
      match (BvhNode.intersects (nodeAt nodes c0) ray).bind
          (fun d => if F.lt d best.1 then some d else none),
        (BvhNode.intersects (nodeAt nodes c1) ray).bind
          (fun d => if F.lt d best.1 then some d else none) with
      | some d0, some d1 =>
        if F.lt d0 d1 then (d0, c0) :: (d1, c1) :: stack
        else (d1, c1) :: (d0, c0) :: stack
      | some d0, none => (d0, c0) :: stack
      | none, some d1 => (d1, c1) :: stack
      | none, none => stack := rfl

theorem closestLoop_isFinal {shapes : List ShapeData} {nodes : List Node} {ray : Ray}
    (hwf : WFNodes nodes) (hfin : FinHits shapes ray)
    (hbox : BoxSound shapes nodes ray) :
    ∀ (fuel : ℕ) (stack : List (F × ℕ)) (best : F × ℕ),
      stackMeasure nodes.length stack < fuel →
      StackOk shapes nodes ray stack → BestOk best →
      IsFinal shapes ray best (stackCovered nodes stack)
        (BvhNode.closestLoop shapes nodes ray fuel stack best) := by
  intro fuel
  induction fuel with
  | zero =>
    intro stack best hm
    exact absurd hm (Nat.not_lt_zero _)
  | succ fuel ih =>
    intro stack best hm hso hbo
    cases stack with
    | nil =>
      refine Or.inl ⟨rfl, ?_⟩
      intro i hi
      simp [stackCovered] at hi
    | cons p rest =>
      obtain ⟨hplen, hpbound⟩ := hso p (List.mem_cons_self p rest)
      have hsrest : StackOk shapes nodes ray rest :=
        fun x hx => hso x (List.mem_cons_of_mem p hx)
      rw [stackMeasure_cons] at hm
      have hpow1 : 0 < 3 ^ (nodes.length - p.2) := pow_pos (by norm_num) _
      by_cases hskip : F.le best.1 p.1 = true
      · rw [closestLoop_cons, if_pos hskip, stackCovered_cons]
        have hres := ih rest best (by omega) hsrest hbo
        refine isFinal_absorb hfin hbo ?_ hres
        intro i hic t ht
        exact F.not_lt_of_le (F.le_trans hskip (hpbound i hic t ht))
      · rw [closestLoop_cons, if_neg hskip]
        rcases hk : (nodeAt nodes p.2).kind with ⟨c0, c1⟩ | ⟨s, e⟩
        · show IsFinal shapes ray best (stackCovered nodes (p :: rest))
            (BvhNode.closestLoop shapes nodes ray fuel
              (BvhNode.stepBranch nodes ray best rest c0 c1) best)
          obtain ⟨hjc0, hjc1, hc0len, hc1len⟩ := hwf p.2 c0 c1 hk
          have h3 : 3 ^ (nodes.length - p.2) = 3 * 3 ^ (nodes.length - p.2 - 1) := by
            rw [← pow_succ']
            congr 1
            omega
          have hpow2 : 0 < 3 ^ (nodes.length - p.2 - 1) := pow_pos (by norm_num) _
          have hmc0 : 3 ^ (nodes.length - c0) ≤ 3 ^ (nodes.length - p.2 - 1) :=
            Nat.pow_le_pow_right (by norm_num) (by omega)
          have hmc1 : 3 ^ (nodes.length - c1) ≤ 3 ^ (nodes.length - p.2 - 1) :=
            Nat.pow_le_pow_right (by norm_num) (by omega)
          rw [stepBranch_def, stackCovered_cons, covered_branch hwf hk]
          rcases hq0 : (BvhNode.intersects (nodeAt nodes c0) ray).bind
              (fun d => if F.lt d best.1 then some d else none) with _ | d0 <;>
            rcases hq1 : (BvhNode.intersects (nodeAt nodes c1) ray).bind
              (fun d => if F.lt d best.1 then some d else none) with _ | d1
          · -- neither child qualifies
            show IsFinal shapes ray best
              (covered nodes c0 + covered nodes c1 + stackCovered nodes rest)
              (BvhNode.closestLoop shapes nodes ray fuel rest best)
            have hsil0 : ∀ i ∈ covered nodes c0, ∀ t,
                (shapeAt shapes i).intersects ray = some t → F.lt t best.1 = false := by
              intro i hic t ht
              cases hbi : BvhNode.intersects (nodeAt nodes c0) ray with
              | none => exact (box_none_no_hit (hbox c0 hc0len i hic) ht hbi).elim
              | some dc =>
                have hle := box_entry_le (hbox c0 hc0len i hic) ht hbi
                have hnq := qualify_eq_none hq0 dc hbi
                have hble : F.le best.1 dc = true :=
                  F.le_of_not_lt (intersects_some_ne_nan hbi) (bestOk_ne_nan hbo) hnq
                exact F.not_lt_of_le (F.le_trans hble hle)
            have hsil1 : ∀ i ∈ covered nodes c1, ∀ t,
                (shapeAt shapes i).intersects ray = some t → F.lt t best.1 = false := by
              intro i hic t ht
              cases hbi : BvhNode.intersects (nodeAt nodes c1) ray with
              | none => exact (box_none_no_hit (hbox c1 hc1len i hic) ht hbi).elim
              | some dc =>
                have hle := box_entry_le (hbox c1 hc1len i hic) ht hbi
                have hnq := qualify_eq_none hq1 dc hbi
                have hble : F.le best.1 dc = true :=
                  F.le_of_not_lt (intersects_some_ne_nan hbi) (bestOk_ne_nan hbo) hnq
                exact F.not_lt_of_le (F.le_trans hble hle)
            have hres := ih rest best (by omega) hsrest hbo
            rw [add_assoc]
            exact isFinal_absorb hfin hbo hsil0 (isFinal_absorb hfin hbo hsil1 hres)
          · -- only child 1 qualifies
            show IsFinal shapes ray best
              (covered nodes c0 + covered nodes c1 + stackCovered nodes rest)
              (BvhNode.closestLoop shapes nodes ray fuel ((d1, c1) :: rest) best)
            obtain ⟨hint1, hlt1⟩ := qualify_eq_some hq1
            have hsil0 : ∀ i ∈ covered nodes c0, ∀ t,
                (shapeAt shapes i).intersects ray = some t → F.lt t best.1 = false := by
              intro i hic t ht
              cases hbi : BvhNode.intersects (nodeAt nodes c0) ray with
              | none => exact (box_none_no_hit (hbox c0 hc0len i hic) ht hbi).elim
              | some dc =>
                have hle := box_entry_le (hbox c0 hc0len i hic) ht hbi
                have hnq := qualify_eq_none hq0 dc hbi
                have hble : F.le best.1 dc = true :=
                  F.le_of_not_lt (intersects_some_ne_nan hbi) (bestOk_ne_nan hbo) hnq
                exact F.not_lt_of_le (F.le_trans hble hle)
            have hso1 : StackOk shapes nodes ray ((d1, c1) :: rest) := by
              intro x hx
              rcases List.mem_cons.mp hx with rfl | hx
              · exact ⟨hc1len, fun i hic t ht =>
                  box_entry_le (hbox c1 hc1len i hic) ht hint1⟩
              · exact hsrest x hx
            have hres := ih ((d1, c1) :: rest) best
              (by rw [stackMeasure_cons]; dsimp only; omega) hso1 hbo
            rw [stackCovered_cons] at hres
            rw [add_assoc]
            exact isFinal_absorb hfin hbo hsil0 hres
          · -- only child 0 qualifies
            show IsFinal shapes ray best
              (covered nodes c0 + covered nodes c1 + stackCovered nodes rest)
              (BvhNode.closestLoop shapes nodes ray fuel ((d0, c0) :: rest) best)
            obtain ⟨hint0, hlt0⟩ := qualify_eq_some hq0
            have hsil1 : ∀ i ∈ covered nodes c1, ∀ t,
                (shapeAt shapes i).intersects ray = some t → F.lt t best.1 = false := by
              intro i hic t ht
              cases hbi : BvhNode.intersects (nodeAt nodes c1) ray with
              | none => exact (box_none_no_hit (hbox c1 hc1len i hic) ht hbi).elim
              | some dc =>
                have hle := box_entry_le (hbox c1 hc1len i hic) ht hbi
                have hnq := qualify_eq_none hq1 dc hbi
                have hble : F.le best.1 dc = true :=
                  F.le_of_not_lt (intersects_some_ne_nan hbi) (bestOk_ne_nan hbo) hnq
                exact F.not_lt_of_le (F.le_trans hble hle)
            have hso0 : StackOk shapes nodes ray ((d0, c0) :: rest) := by
              intro x hx
              rcases List.mem_cons.mp hx with rfl | hx
              · exact ⟨hc0len, fun i hic t ht =>
                  box_entry_le (hbox c0 hc0len i hic) ht hint0⟩
              · exact hsrest x hx
            have hres := ih ((d0, c0) :: rest) best
              (by rw [stackMeasure_cons]; dsimp only; omega) hso0 hbo
            rw [stackCovered_cons] at hres
            rw [add_comm (covered nodes c0) (covered nodes c1), add_assoc]
            exact isFinal_absorb hfin hbo hsil1 hres
          · -- both children qualify
            obtain ⟨hint0, hlt0⟩ := qualify_eq_some hq0
            obtain ⟨hint1, hlt1⟩ := qualify_eq_some hq1
            have hok0 : ∀ i ∈ covered nodes c0, ∀ t,
                (shapeAt shapes i).intersects ray = some t → F.le d0 t = true :=
              fun i hic t ht => box_entry_le (hbox c0 hc0len i hic) ht hint0
            have hok1 : ∀ i ∈ covered nodes c1, ∀ t,
                (shapeAt shapes i).intersects ray = some t → F.le d1 t = true :=
              fun i hic t ht => box_entry_le (hbox c1 hc1len i hic) ht hint1
            show IsFinal shapes ray best
              (covered nodes c0 + covered nodes c1 + stackCovered nodes rest)
              (BvhNode.closestLoop shapes nodes ray fuel
                (if F.lt d0 d1 then (d0, c0) :: (d1, c1) :: rest
                 else (d1, c1) :: (d0, c0) :: rest) best)
            by_cases hlt01 : F.lt d0 d1 = true
            · rw [if_pos hlt01]
              have hso2 : StackOk shapes nodes ray ((d0, c0) :: (d1, c1) :: rest) := by
                intro x hx
                rcases List.mem_cons.mp hx with rfl | hx
                · exact ⟨hc0len, hok0⟩
                rcases List.mem_cons.mp hx with rfl | hx
                · exact ⟨hc1len, hok1⟩
                · exact hsrest x hx
              have hres := ih ((d0, c0) :: (d1, c1) :: rest) best
                (by rw [stackMeasure_cons, stackMeasure_cons]; dsimp only; omega) hso2 hbo
              rw [stackCovered_cons, stackCovered_cons] at hres
              rw [add_assoc]
              exact hres
            · rw [if_neg hlt01]
              have hso2 : StackOk shapes nodes ray ((d1, c1) :: (d0, c0) :: rest) := by
                intro x hx
                rcases List.mem_cons.mp hx with rfl | hx
                · exact ⟨hc1len, hok1⟩
                rcases List.mem_cons.mp hx with rfl | hx
                · exact ⟨hc0len, hok0⟩
                · exact hsrest x hx
              have hres := ih ((d1, c1) :: (d0, c0) :: rest) best
                (by rw [stackMeasure_cons, stackMeasure_cons]; dsimp only; omega) hso2 hbo
              rw [stackCovered_cons, stackCovered_cons] at hres
              rw [add_comm (covered nodes c0) (covered nodes c1), add_assoc]
              exact hres
        · show IsFinal shapes ray best (stackCovered nodes (p :: rest))
            (BvhNode.closestLoop shapes nodes ray fuel rest
              (BvhNode.leafScan shapes ray s e best))
          obtain ⟨hscan, hbo2⟩ := scanIdx_isFinal hfin (List.range' s (e - s)) best hbo
          rw [← leafScan_eq_scan] at hscan hbo2
          have hres := ih rest (BvhNode.leafScan shapes ray s e best)
            (by omega) hsrest hbo2
          rw [stackCovered_cons, covered_leaf hk]
          exact isFinal_compose hfin hbo hscan hres

theorem FinHits_of_optAll (shapes : List ShapeData) (ray : Ray)
    (h : ∀ sh ∈ shapes, optAll finPos (sh.intersects ray) = true) :
    FinHits shapes ray := by
  intro i t ht
  rcases shapeAt_mem_or_default shapes i with hm | hd
  · have := h _ hm
    rw [ht] at this
    simpa [optAll] using this
  · rw [hd, default_shape_intersects] at ht
    cases ht

theorem NoTies_of_optNe (shapes : List ShapeData) (ray : Ray)
    (h : ∀ i, i < shapes.length → ∀ j, j < shapes.length → i ≠ j →
      optNe ((shapeAt shapes i).intersects ray)
        ((shapeAt shapes j).intersects ray) = true) :
    NoTies shapes ray := by
  intro i j ti tj hij hti htj
  by_cases hi : i < shapes.length
  · by_cases hj : j < shapes.length
    · have := h i hi j hj hij
      rw [hti, htj] at this
      simpa [optNe] using this
    · rw [shapeAt_oob (by omega), default_shape_intersects] at htj
      cases htj
  · rw [shapeAt_oob (by omega), default_shape_intersects] at hti
    cases hti


/-- C1 amended: for every shape array, node array and ray such that (i) the
node array is nonempty and well-formed (branch children strictly below and in
bounds), (ii) the root's subtree covers exactly the index range
`0..shapes.length`, (iii) every reported shape hit is a finite strictly
positive time, (iv) no two distinct shapes report the same hit time, and
(v) every node's slab test reports an entry distance not later than every hit
of every shape in its subtree, `BvhNode::closest_shape` returns exactly the
same result as the brute-force linear scan over all shapes — in particular it
returns `None` exactly when no shape intersects the ray.  Condition (v) is
what fails in the recorded counterexample: a ray that starts on the shared
boundary plane of two sibling boxes with zero direction component across it
makes both slab tests compute `0/0 = NaN` and miss. -/
theorem C1_amended (shapes : List ShapeData) (nodes : List Node) (ray : Ray)
    (hn : 0 < nodes.length) (hwf : WFNodes nodes)
    (hcov : covered nodes 0 = Multiset.range shapes.length)
    (hfin : FinHits shapes ray) (hties : NoTies shapes ray)
    (hbox : BoxSound shapes nodes ray) :
    BvhNode.closestShape ray shapes nodes = BvhNode.bruteForceClosest ray shapes := by
  have hb0 : BestOk (F.inf true, BvhNode.u32Max) := Or.inl rfl
  have hstack : StackOk shapes nodes ray [(F.fin 0, 0)] := by
    intro p hp
    rw [List.mem_singleton] at hp
    subst hp
    refine ⟨hn, ?_⟩
    intro i hi t ht
    obtain ⟨q, rfl, hq⟩ := finPos_fin (hfin i t ht)
    show F.le (F.fin 0) (F.fin q) = true
    simp [F.le]
    linarith
  have hmeas : stackMeasure nodes.length [(F.fin 0, 0)] < 3 ^ nodes.length + 1 := by
    simp [stackMeasure]
  have h1 := closestLoop_isFinal hwf hfin hbox (3 ^ nodes.length + 1)
    [(F.fin 0, 0)] (F.inf true, BvhNode.u32Max) hmeas hstack hb0
  have hsc : stackCovered nodes [(F.fin 0, 0)] = Multiset.range shapes.length := by
    simp [stackCovered, hcov]
  rw [hsc] at h1
  obtain ⟨h2, _⟩ := scanIdx_isFinal hfin (List.range shapes.length)
    (F.inf true, BvhNode.u32Max) hb0
  have hms2 : ((List.range shapes.length : List ℕ) : Multiset ℕ) =
      Multiset.range shapes.length := rfl
  rw [hms2] at h2
  have hbest := isFinal_unique hfin hties h1 h2
  rw [closestShape_eq_finish, bruteForceClosest_eq_finish, bruteForceLoop_eq_scan, hbest]

/-- C1 counterexample: on sixteen unit spheres with centers `x = 2·i - 14`,
`BvhNode::new` splits the root into two children whose boxes share the
boundary plane `x = 1`; for the ray from `(1, 0, -10)` along `+z` both
children's slab tests compute `0/0 = NaN` and report a miss, so
`closest_shape` returns `None`, while the brute-force scan over every shape
finds the tangent hit of sphere `7` at distance `10`. -/
theorem C1_cex :
    BvhNode.closestShape cexRay (BvhNode.new scene16).1 (BvhNode.new scene16).2 = none ∧
    ((BvhNode.bruteForceClosest cexRay (BvhNode.new scene16).1).map
      (fun out => (out.1, out.2.2.2))) = some (F.fin 10, 7) := by
  constructor
  · with_unfolding_all rfl
  · with_unfolding_all rfl

/-- Closed witness for the amended C1 theorem at a concrete input: a
one-sphere scene and the ray from the origin along `+z`, whose freshly built
one-leaf BVH satisfies all five amendment conditions, so traversal and brute
force agree. -/
theorem C1_witness :
    BvhNode.closestShape ⟨⟨F.fin 0, F.fin 0, F.fin 0⟩, ⟨F.fin 0, F.fin 0, F.fin 1⟩⟩
        (BvhNode.new [Sphere.toShape noTranscend
          ⟨⟨F.fin 0, F.fin 0, F.fin 5⟩, F.fin 1, 0⟩]).1
        (BvhNode.new [Sphere.toShape noTranscend
          ⟨⟨F.fin 0, F.fin 0, F.fin 5⟩, F.fin 1, 0⟩]).2 =
      BvhNode.bruteForceClosest ⟨⟨F.fin 0, F.fin 0, F.fin 0⟩, ⟨F.fin 0, F.fin 0, F.fin 1⟩⟩
        (BvhNode.new [Sphere.toShape noTranscend
          ⟨⟨F.fin 0, F.fin 0, F.fin 5⟩, F.fin 1, 0⟩]).1 :=
  C1_amended _ _ _
    (by with_unfolding_all decide)
    (new_WFNodes _)
    (by with_unfolding_all decide)
    (FinHits_of_optAll _ _ (by with_unfolding_all decide))
    (NoTies_of_optNe _ _ (by with_unfolding_all decide))
    (by with_unfolding_all decide)

end Raytracer
